import Mathlib

/-!
# Verification of the `Neuron` reverse-mode autodiff engine

Shallow embedding of `src/neuron/src/val.rs`: a `Val` is a shared,
mutably-updatable node (`Rc<RefCell<ValInternal>>`) holding a scalar
`data`, an accumulated `gradient`, an optional `label`, an operation tag,
a list of `parents`, and an optional local-gradient function.

We model the heap of shared nodes as an arena: a `Graph` is a list of
`Node` records and a `Val` is an index into it.  Parent links are indices;
by construction every operator appends a fresh node whose parents are
strictly smaller indices, so the graph is acyclic.  `f64` scalars are
modelled as `ℚ` (all claim scenarios use exactly-representable values and
the engine performs only `+`, `*`, comparisons and `powf`; `powf` is kept
as an explicit function parameter since it is not closed over `ℚ`).

The Rust `Val` has *value-based* equality and hashing (`PartialEq`/`Hash`
recurse through `data`, `gradient`, `label`, `operation` and `parents`).
This deep current-contents view of a node is the `Snap` (snapshot) type
below.  The `HashSet<Val>` used as the visited set stores each key's hash
at insertion time while equality is evaluated on live (mutated) contents;
we model a lookup as succeeding iff some stored entry's insertion-time
snapshot equals the query's current snapshot (the hash check, idealising
the hasher as collision-free) and the stored key's current snapshot also
equals the query's current snapshot (the equality check).
-/

namespace Neuron

/-- Which local-gradient rule (`propagate` function together with the
operation string) a node carries: `"+"`, `"*"`, `"^"` or `"ReLU"` in the
source.  Leaves carry none. -/
inductive Rule where
  | radd
  | rmul
  | rpow
  | rrelu
deriving DecidableEq, Repr

/-- One `ValInternal` record: `data`, `gradient`, `label`, the operation
tag / propagate function (merged into `rule`, since the source always sets
them together), and the parent indices. -/
structure Node where
  data : ℚ
  gradient : ℚ
  label : Option String
  rule : Option Rule
  parents : List Nat
deriving DecidableEq, Repr

instance : Inhabited Node := ⟨⟨0, 0, none, none, []⟩⟩

/-- The arena of allocated nodes; a `Val` is an index into it. -/
abbrev Graph := List Node

/-- Read a node (out-of-range reads return the default node; all code
paths exercised by the source only use live indices). -/
def nd (g : Graph) (i : Nat) : Node := (g[i]?).getD default

/-- Overwrite a node's gradient (`self.borrow_mut().gradient = v`). -/
def setGrad (g : Graph) (i : Nat) (v : ℚ) : Graph :=
  g.set i { nd g i with gradient := v }

/-- Add to a node's gradient (`gradient += v`). -/
def addGrad (g : Graph) (i : Nat) (v : ℚ) : Graph :=
  g.set i { nd g i with gradient := (nd g i).gradient + v }

/-- A deep snapshot of a node's current contents: exactly the data the
derived `PartialEq`/`Hash` of `ValInternal` traverse (`data`, `gradient`,
`label`, `operation`, and recursively the parents).  Nodes built by the
source's operators have 0, 1 or 2 parents, hence the three constructors;
`bad` covers out-of-fuel/malformed reads, which never occur on graphs
built by the operators below. -/
inductive Snap where
  | bad
  | n0 (data gradient : ℚ) (label : Option String) (op : Option Rule)
  | n1 (data gradient : ℚ) (label : Option String) (op : Option Rule) (p : Snap)
  | n2 (data gradient : ℚ) (label : Option String) (op : Option Rule) (p q : Snap)
deriving DecidableEq, Repr

/-- Compute the deep snapshot of node `i`, with explicit fuel.  Since
parents of node `i` have indices `< i`, fuel `i + 1` always suffices on
graphs built by the operators. -/
def snapF (g : Graph) : Nat → Nat → Snap
  | 0, _ => .bad
  | fuel + 1, i =>
    match (nd g i).parents with
    | [] => .n0 (nd g i).data (nd g i).gradient (nd g i).label (nd g i).rule
    | [p] => .n1 (nd g i).data (nd g i).gradient (nd g i).label (nd g i).rule (snapF g fuel p)
    | [p, q] => .n2 (nd g i).data (nd g i).gradient (nd g i).label (nd g i).rule
        (snapF g fuel p) (snapF g fuel q)
    | _ => .bad

/-- Current deep snapshot of node `i` (the value `*val.borrow() ==`
compares and `Hash` hashes). -/
def snapNow (g : Graph) (i : Nat) : Snap := snapF g (i + 1) i

/-- Write events performed on node gradients during a backward pass,
plus a record of each local-gradient-rule invocation.  `assign` is a
plain store (`gradient = v`), `add` an accumulation (`gradient += v`),
`fire i` records that node `i`'s propagate function was invoked. -/
inductive Ev where
  | assign (i : Nat) (v : ℚ)
  | add (i : Nat) (v : ℚ)
  | fire (i : Nat)
deriving DecidableEq, Repr

/-- Invoke node `i`'s propagate function, if any: the bodies of the four
`prop_fn` closures in the source, applied to the current state.  Returns
the new graph together with the event trace of the invocation.

* `+` : if `*parents[1].borrow() == *parents[0].borrow()` (deep value
  equality) then `parents[0].gradient += 2 * value.gradient`, else each
  parent's gradient `+= value.gradient`;
* `*` : if the parents compare equal then
  `parents[0].gradient += 2 * parents[0].data` (note: the source does
  *not* multiply by `value.gradient` in this branch), else
  `parents[0].gradient += parents[1].data * value.gradient` and
  `parents[1].gradient += parents[0].data * value.gradient`;
* `^` : `parents[0].gradient += parents[1].data *
  powf(parents[0].data, parents[1].data - 1) * value.gradient`
  (the exponent's gradient is not touched);
* `ReLU` : `parents[0].gradient += if parents[0].data > 0 then
  value.gradient else 0`. -/
def applyRule (powf : ℚ → ℚ → ℚ) (g : Graph) (i : Nat) : Graph × List Ev :=
  match (nd g i).rule, (nd g i).parents with
  | none, _ => (g, [])
  | some .radd, [p, q] =>
    if snapNow g q = snapNow g p then
      (addGrad g p (2 * (nd g i).gradient), [.fire i, .add p (2 * (nd g i).gradient)])
    else
      (addGrad (addGrad g p (nd g i).gradient) q (nd g i).gradient,
        [.fire i, .add p (nd g i).gradient, .add q (nd g i).gradient])
  | some .rmul, [p, q] =>
    if snapNow g q = snapNow g p then
      (addGrad g p (2 * (nd g p).data), [.fire i, .add p (2 * (nd g p).data)])
    else
      (addGrad (addGrad g p ((nd g q).data * (nd g i).gradient)) q
          ((nd g p).data * (nd g i).gradient),
        [.fire i, .add p ((nd g q).data * (nd g i).gradient),
          .add q ((nd g p).data * (nd g i).gradient)])
  | some .rpow, [p, q] =>
    (addGrad g p
        ((nd g q).data * powf (nd g p).data ((nd g q).data - 1) * (nd g i).gradient),
      [.fire i,
        .add p ((nd g q).data * powf (nd g p).data ((nd g q).data - 1) * (nd g i).gradient)])
  | some .rrelu, [p] =>
    (addGrad g p (if (nd g p).data > 0 then (nd g i).gradient else 0),
      [.fire i, .add p (if (nd g p).data > 0 then (nd g i).gradient else 0)])
  | some _, _ => (g, [.fire i])

/-- The visited set: each entry pairs a node index with the deep snapshot
the node had when it was inserted (the `HashSet` stores the hash computed
at insertion time). -/
abbrev Visited := List (Nat × Snap)

/-- Model of `visited.contains(node)` for the mutated-key `HashSet<Val>`: a stored
entry is found iff its insertion-time snapshot (its stored hash) matches
the query's current snapshot and the stored key's *current* snapshot (the
live `Eq` check) also matches the query's current snapshot. -/
def seen (g : Graph) (vis : Visited) (i : Nat) : Prop :=
  ∃ e ∈ vis, e.2 = snapNow g i ∧ snapNow g e.1 = snapNow g i

instance (g : Graph) (vis : Visited) (i : Nat) : Decidable (seen g vis i) :=
  List.decidableBEx _ vis

/-- One DFS step of `back_prop_internal`: if the node is not in the
visited set, insert it (recording its current snapshot), invoke its
propagate function, then recurse into its parents left to right.  Fuel
decreases by one per level; since parents have strictly smaller indices,
fuel `i + 1` suffices when starting from node `i`. -/
def backPropAux (powf : ℚ → ℚ → ℚ) :
    Nat → Graph × Visited × List Ev → Nat → Graph × Visited × List Ev
  | 0, st, _ => st
  | fuel + 1, (g, vis, evs), i =>
    if seen g vis i then (g, vis, evs)
    else
      let vis' := vis ++ [(i, snapNow g i)]
      let r := applyRule powf g i
      (nd r.1 i).parents.foldl (backPropAux powf fuel) (r.1, vis', evs ++ r.2)

/-- Model of `Val::back_prop_gradient`: seed the terminal's gradient with `1.0`
(a plain store), then run the DFS from the terminal with an empty visited
set.  Returns the final graph, the visited set and the event trace. -/
def backProp (powf : ℚ → ℚ → ℚ) (g : Graph) (t : Nat) : Graph × Visited × List Ev :=
  backPropAux powf (t + 1) (setGrad g t 1, [], [.assign t 1]) t

/-- Model of `Val::reset_gradient`: zero one node's gradient. -/
def resetGradient (g : Graph) (i : Nat) : Graph := setGrad g i 0

/-- Model of `Val::new(data, label)`: a fresh leaf with zero gradient, a label, no
operation and no parents.  Returns the extended graph and the new index. -/
def mkVal (g : Graph) (d : ℚ) (lab : String) : Graph × Nat :=
  (g ++ [⟨d, 0, some lab, none, []⟩], g.length)

/-- Model of `Val::from(f64)`: a fresh unlabelled leaf. -/
def mkFrom (g : Graph) (d : ℚ) : Graph × Nat :=
  (g ++ [⟨d, 0, none, none, []⟩], g.length)

/-- Model of `Val::with_label`: overwrite a node's label. -/
def withLabel (g : Graph) (i : Nat) (lab : String) : Graph :=
  g.set i { nd g i with label := some lab }

/-- Model of `impl Add for Val`: result value is the sum, tag `"+"`, parents in
operand order, rule `radd`. -/
def mkAdd (g : Graph) (x y : Nat) : Graph × Nat :=
  (g ++ [⟨(nd g x).data + (nd g y).data, 0, none, some .radd, [x, y]⟩], g.length)

/-- Model of `impl Mul for &Val` (and of `Mul for Val`, which delegates to it):
result value is the product, tag `"*"`, rule `rmul`. -/
def mkMul (g : Graph) (x y : Nat) : Graph × Nat :=
  (g ++ [⟨(nd g x).data * (nd g y).data, 0, none, some .rmul, [x, y]⟩], g.length)

/-- Model of `Val::pow`: result value is `self.data.powf(other.data)`, tag `"^"`,
rule `rpow`, parents `[base, exponent]`. -/
def mkPow (powf : ℚ → ℚ → ℚ) (g : Graph) (x y : Nat) : Graph × Nat :=
  (g ++ [⟨powf (nd g x).data (nd g y).data, 0, none, some .rpow, [x, y]⟩], g.length)

/-- Model of `Val::relu`: result value is the input if nonnegative, else `0`
(the source tests `data < 0.0`), tag `"ReLU"`, rule `rrelu`. -/
def mkRelu (g : Graph) (x : Nat) : Graph × Nat :=
  (g ++ [⟨if (nd g x).data < 0 then 0 else (nd g x).data, 0, none, some .rrelu, [x]⟩],
    g.length)


/-! ## Basic lemmas about the state operations -/

/-- Unfolding lemma for one step of the DFS at positive fuel. -/
theorem backPropAux_succ (powf : ℚ → ℚ → ℚ) (fuel : Nat) (g : Graph) (vis : Visited)
    (evs : List Ev) (i : Nat) :
    backPropAux powf (fuel + 1) (g, vis, evs) i =
      if seen g vis i then (g, vis, evs)
      else (nd (applyRule powf g i).1 i).parents.foldl (backPropAux powf fuel)
        ((applyRule powf g i).1, vis ++ [(i, snapNow g i)], evs ++ (applyRule powf g i).2) :=
  rfl

/-- Reading a node of a graph after a set. -/
theorem nd_set (g : Graph) (i j : Nat) (n : Node) :
    nd (g.set i n) j = if i = j ∧ i < g.length then n else nd g j := by
  simp only [nd]
  rw [List.getElem?_set]
  by_cases hij : i = j
  · subst hij
    by_cases h : i < g.length
    · simp [h]
    · simp [h, List.getElem?_eq_none (Nat.le_of_not_lt h)]
  · simp [hij]

/-- Out-of-range reads give the default node. -/
theorem nd_oob (g : Graph) (i : Nat) (h : g.length ≤ i) : nd g i = default := by
  simp [nd, List.getElem?_eq_none, h]

/-- Gradient update: effect of addGrad on reads. -/
theorem nd_addGrad (g : Graph) (i j : Nat) (v : ℚ) :
    nd (addGrad g i v) j =
      if i = j ∧ i < g.length then
        { nd g i with gradient := (nd g i).gradient + v }
      else nd g j := by
  unfold addGrad
  rw [nd_set]

/-- Gradient overwrite: effect of setGrad on reads. -/
theorem nd_setGrad (g : Graph) (i j : Nat) (v : ℚ) :
    nd (setGrad g i v) j =
      if i = j ∧ i < g.length then { nd g i with gradient := v }
      else nd g j := by
  unfold setGrad
  rw [nd_set]

/-- The non-gradient fields of a node, used to state that the backward
pass mutates nothing but gradients. -/
def shapeOf (n : Node) : ℚ × Option String × Option Rule × List Nat :=
  (n.data, n.label, n.rule, n.parents)

/-- The shape of a graph: everything except the gradients. -/
def shape (g : Graph) : List (ℚ × Option String × Option Rule × List Nat) :=
  g.map shapeOf

theorem shape_length (g : Graph) : (shape g).length = g.length := by
  simp [shape]

theorem shape_set_grad (g : Graph) (i : Nat) (v : ℚ) :
    shape (g.set i { nd g i with gradient := v }) = shape g := by
  apply List.ext_getElem?
  intro j
  simp only [shape, List.getElem?_map]
  rw [List.getElem?_set]
  by_cases hij : i = j
  · subst hij
    by_cases h : i < g.length
    · simp [h, shapeOf, nd, List.getElem?_eq_getElem h]
    · simp [h, List.getElem?_eq_none (Nat.le_of_not_lt h)]
  · simp [hij]

theorem shape_addGrad (g : Graph) (i : Nat) (v : ℚ) : shape (addGrad g i v) = shape g :=
  shape_set_grad g i _

theorem shape_setGrad (g : Graph) (i : Nat) (v : ℚ) : shape (setGrad g i v) = shape g :=
  shape_set_grad g i _

/-- The propagate functions modify only gradients. -/
theorem shape_applyRule (powf : ℚ → ℚ → ℚ) (g : Graph) (i : Nat) :
    shape (applyRule powf g i).1 = shape g := by
  rcases hr : (nd g i).rule with _ | r
  · simp [applyRule, hr]
  · rcases hp : (nd g i).parents with _ | ⟨p, _ | ⟨q, _ | _⟩⟩ <;> rcases r <;>
      simp only [applyRule, hr, hp] <;>
      first
        | rfl
        | simp [shape_addGrad]
        | (split <;> simp [shape_addGrad])

/-- The DFS modifies only gradients. -/
theorem shape_backPropAux (powf : ℚ → ℚ → ℚ) :
    ∀ (fuel : Nat) (st : Graph × Visited × List Ev) (i : Nat),
      shape (backPropAux powf fuel st i).1 = shape st.1 := by
  intro fuel
  induction fuel with
  | zero => intro st i; rfl
  | succ fuel ih =>
    intro st i
    obtain ⟨g, vis, evs⟩ := st
    rw [backPropAux_succ]
    split
    · rfl
    · generalize hst : ((applyRule powf g i).1, vis ++ [(i, snapNow g i)],
        evs ++ (applyRule powf g i).2) = st₀
      have hst₀ : shape st₀.1 = shape g := by
        rw [← hst]; exact shape_applyRule powf g i
      generalize (nd (applyRule powf g i).1 i).parents = l
      clear hst
      induction l generalizing st₀ with
      | nil => simpa using hst₀
      | cons p l ihl =>
        simp only [List.foldl_cons]
        exact ihl _ (by rw [ih st₀ p]; exact hst₀)

/-- Two graphs with the same shape agree on every non-gradient field. -/
theorem shape_eq_fields {g g' : Graph} (h : shape g' = shape g) (i : Nat) :
    (nd g' i).data = (nd g i).data ∧ (nd g' i).label = (nd g i).label ∧
    (nd g' i).rule = (nd g i).rule ∧ (nd g' i).parents = (nd g i).parents := by
  have hlen : g'.length = g.length := by
    have := congrArg List.length h
    simpa [shape] using this
  by_cases hi : i < g.length
  · have hi' : i < g'.length := by omega
    have h2 := congrArg (fun l => l[i]?) h
    simp only [shape, List.getElem?_map] at h2
    rw [List.getElem?_eq_getElem hi, List.getElem?_eq_getElem hi'] at h2
    have h5 : shapeOf (g'.get ⟨i, hi'⟩) = shapeOf (g.get ⟨i, hi⟩) := by
      simpa [List.get_eq_getElem] using h2
    have h3 : nd g' i = g'.get ⟨i, hi'⟩ := by
      simp [nd, List.getElem?_eq_getElem hi', List.get_eq_getElem]
    have h4 : nd g i = g.get ⟨i, hi⟩ := by
      simp [nd, List.getElem?_eq_getElem hi, List.get_eq_getElem]
    rw [h3, h4]
    exact ⟨congrArg (fun x => x.1) h5, congrArg (fun x => x.2.1) h5,
      congrArg (fun x => x.2.2.1) h5, congrArg (fun x => x.2.2.2) h5⟩
  · rw [nd_oob g i (by omega), nd_oob g' i (by omega)]
    exact ⟨rfl, rfl, rfl, rfl⟩

theorem length_of_shape_eq {g g' : Graph} (h : shape g' = shape g) :
    g'.length = g.length := by
  have := congrArg List.length h
  simpa [shape] using this

/-- A graph in which no node has the power rule (so that the backward
pass never consults powf). -/
def noPow (g : Graph) : Prop := ∀ i, (nd g i).rule ≠ some .rpow

instance (g : Graph) : Decidable (noPow g) := by
  have h : noPow g ↔ ∀ i ∈ List.range g.length, (nd g i).rule ≠ some .rpow := by
    constructor
    · intro h i _; exact h i
    · intro h i
      by_cases hi : i < g.length
      · exact h i (List.mem_range.mpr hi)
      · rw [nd_oob g i (by omega)]
        intro hc
        cases hc
  exact decidable_of_iff' _ h

/-- On pow-free graphs the propagate functions do not depend on powf. -/
theorem applyRule_powf_irrel (powf powf' : ℚ → ℚ → ℚ) (g : Graph) (i : Nat)
    (h : noPow g) : applyRule powf g i = applyRule powf' g i := by
  rcases hr : (nd g i).rule with _ | r
  · simp [applyRule, hr]
  rcases r <;> rcases hp : (nd g i).parents with _ | ⟨p, _ | ⟨q, _ | _⟩⟩ <;>
    first
      | exact absurd hr (h i)
      | simp [applyRule, hr, hp]

theorem noPow_of_shape {g g' : Graph} (hs : shape g' = shape g) (h : noPow g) :
    noPow g' := by
  intro i
  rw [(shape_eq_fields hs i).2.2.1]
  exact h i

/-- On pow-free graphs the whole DFS does not depend on powf. -/
theorem backPropAux_powf_irrel (powf powf' : ℚ → ℚ → ℚ) :
    ∀ (fuel : Nat) (st : Graph × Visited × List Ev) (i : Nat), noPow st.1 →
      backPropAux powf fuel st i = backPropAux powf' fuel st i := by
  intro fuel
  induction fuel with
  | zero => intro st i _; rfl
  | succ fuel ih =>
    intro st i h
    obtain ⟨g, vis, evs⟩ := st
    rw [backPropAux_succ, backPropAux_succ]
    split
    · rfl
    · rw [applyRule_powf_irrel powf powf' g i h]
      generalize hst : ((applyRule powf' g i).1, vis ++ [(i, snapNow g i)],
        evs ++ (applyRule powf' g i).2) = st₀
      have hst₀ : noPow st₀.1 := by
        rw [← hst]
        exact noPow_of_shape (shape_applyRule powf' g i) h
      generalize (nd (applyRule powf' g i).1 i).parents = l
      clear hst
      induction l generalizing st₀ with
      | nil => rfl
      | cons p l ihl =>
        simp only [List.foldl_cons]
        rw [ih st₀ p hst₀]
        exact ihl _ (noPow_of_shape (shape_backPropAux powf' fuel st₀ p) hst₀)

/-- On pow-free graphs the whole backward pass does not depend on powf. -/
theorem backProp_powf_irrel (powf powf' : ℚ → ℚ → ℚ) (g : Graph) (t : Nat)
    (h : noPow g) : backProp powf g t = backProp powf' g t := by
  unfold backProp
  exact backPropAux_powf_irrel powf powf' (t + 1) _ t
    (noPow_of_shape (shape_setGrad g t 1) h)

/-! ## Concrete scenario graphs from the claims -/

/-- A fixed interpretation of powf used to state closed facts about
pow-free graphs (the backward pass never consults it there, see
backProp_powf_irrel). -/
def qzero : ℚ → ℚ → ℚ := fun _ _ => 0

/-- A second fixed interpretation of powf, used in the power
counterexample. -/
def qaddf : ℚ → ℚ → ℚ := fun x y => x + y

/-- Two labelled leaves and their sum: indices 0, 1, root 2. -/
def addTwoLeaves (v₁ v₂ : ℚ) (l₁ l₂ : String) : Graph :=
  let s1 := mkVal [] v₁ l₁
  let s2 := mkVal s1.1 v₂ l₂
  (mkAdd s2.1 s1.2 s2.2).1

/-- Two labelled leaves and their product: indices 0, 1, root 2. -/
def mulTwoLeaves (v₁ v₂ : ℚ) (l₁ l₂ : String) : Graph :=
  let s1 := mkVal [] v₁ l₁
  let s2 := mkVal s1.1 v₂ l₂
  (mkMul s2.1 s1.2 s2.2).1

/-- Two labelled leaves and pow(first, second): indices 0, 1, root 2. -/
def powTwoLeaves (powf : ℚ → ℚ → ℚ) (v₁ v₂ : ℚ) (l₁ l₂ : String) : Graph :=
  let s1 := mkVal [] v₁ l₁
  let s2 := mkVal s1.1 v₂ l₂
  (mkPow powf s2.1 s1.2 s2.2).1

/-- One leaf used as both operands of one addition: leaf 0, root 1. -/
def addSelfLeaf (v : ℚ) (lab : String) : Graph :=
  let s1 := mkVal [] v lab
  (mkAdd s1.1 s1.2 s1.2).1

/-- One leaf used as both operands of one multiplication: leaf 0, root 1. -/
def mulSelfLeaf (v : ℚ) (lab : String) : Graph :=
  let s1 := mkVal [] v lab
  (mkMul s1.1 s1.2 s1.2).1

/-- One leaf and its relu: leaf 0, root 1. -/
def reluLeaf (v : ℚ) (lab : String) : Graph :=
  let s1 := mkVal [] v lab
  (mkRelu s1.1 s1.2).1

/-- The canonical worked example of the spec and of the source's test:
a=2, b=-3, c=10, f=-2, e = a*b, d = e + c, l = d*f, with the same
relabelling calls as the test.  Indices: a=0, b=1, c=2, e=3, d=4, f=5,
l=6; the second component is the index of l. -/
def workedExample : Graph × Nat :=
  let s1 := mkVal [] 2 "a"
  let s2 := mkVal s1.1 (-3) "b"
  let s3 := mkVal s2.1 10 "c"
  let s4 := mkMul s3.1 s1.2 s2.2
  let g4 := withLabel s4.1 s4.2 "e"
  let s5 := mkAdd g4 s4.2 s3.2
  let g5 := withLabel s5.1 s5.2 "d"
  let s6 := mkVal g5 (-2) "f"
  let s7 := mkMul s6.1 s5.2 s6.2
  (withLabel s7.1 s7.2 "L", s7.2)

/-- A diamond-shaped graph: leaves a=5, b=7, c1=10, c2=20, with
w = a + b, u = w + c1, v = w + c2, t = u + v; the node w is reachable
from the terminal t along two distinct paths (through u and through v).
Indices: a=0, b=1, w=2, c1=3, u=4, c2=5, v=6, t=7. -/
def diamondGraph : Graph :=
  let s1 := mkVal [] 5 "a"
  let s2 := mkVal s1.1 7 "b"
  let s3 := mkAdd s2.1 s1.2 s2.2
  let s4 := mkVal s3.1 10 "c"
  let s5 := mkAdd s4.1 s3.2 s4.2
  let s6 := mkVal s5.1 20 "d"
  let s7 := mkAdd s6.1 s3.2 s6.2
  (mkAdd s7.1 s5.2 s7.2).1

/-- Exponent-gradient counterexample graph for the power rule: a leaf
b = 2, a = relu(b), and the terminal pow(a, b), with powf interpreted as
qaddf.  Indices: b=0, a=1, t=2. -/
def powReluGraph : Graph :=
  let s1 := mkVal [] 2 "b"
  let s2 := mkRelu s1.1 s1.2
  (mkPow qaddf s2.1 s2.2 s1.2).1

/-! ## Claim C2: the canonical worked example -/

/-- Claim C2 (confirmed).  In the canonical worked example with leaves
a=2, b=-3, c=10, f=-2 and nodes e = a*b, d = e + c, l = d*f, the forward
values are e.value = -6, d.value = 4, l.value = -8, and after the
backward pass on l the gradients are f=4, d=-2, c=-2, e=-2, a=6, b=-4
(for any interpretation of powf; the graph contains no power node). -/
theorem c2_worked_example (powf : ℚ → ℚ → ℚ) :
    (nd workedExample.1 3).data = -6 ∧
    (nd workedExample.1 4).data = 4 ∧
    (nd workedExample.1 6).data = -8 ∧
    (nd (backProp powf workedExample.1 workedExample.2).1 5).gradient = 4 ∧
    (nd (backProp powf workedExample.1 workedExample.2).1 4).gradient = -2 ∧
    (nd (backProp powf workedExample.1 workedExample.2).1 2).gradient = -2 ∧
    (nd (backProp powf workedExample.1 workedExample.2).1 3).gradient = -2 ∧
    (nd (backProp powf workedExample.1 workedExample.2).1 0).gradient = 6 ∧
    (nd (backProp powf workedExample.1 workedExample.2).1 1).gradient = -4 := by
  have hnp : noPow workedExample.1 := by
    with_unfolding_all exact of_decide_eq_true rfl
  rw [backProp_powf_irrel powf qzero workedExample.1 workedExample.2 hnp]
  with_unfolding_all exact of_decide_eq_true rfl

/-! ## Claim C3: product of two leaves, and the Multiply rule -/

/-- Claim C3, counterexample.  Two distinct leaf nodes that happen to
have equal contents (value 1, label "x"): the backward pass on their
product leaves gradients (2, 0), not (v_b, v_a) = (1, 1) as the claim
requires, because the value-equality test in the Multiply rule conflates
the two distinct nodes. -/
theorem c3_counterexample :
    (nd (backProp qzero (mulTwoLeaves 1 1 "x" "x") 2).1 0).gradient = 2 ∧
    (nd (backProp qzero (mulTwoLeaves 1 1 "x" "x") 2).1 1).gradient = 0 ∧
    ¬ ((nd (backProp qzero (mulTwoLeaves 1 1 "x" "x") 2).1 0).gradient = 1 ∧
       (nd (backProp qzero (mulTwoLeaves 1 1 "x" "x") 2).1 1).gradient = 1) := by
  with_unfolding_all exact of_decide_eq_true rfl

/-- Claim C3, amended.  For two leaves that differ in value or label,
the backward pass on their product yields a.gradient = v_b and
b.gradient = v_a.  In general the Multiply local rule adds
parent[1].value * gradient to parent[0].gradient and parent[0].value *
gradient to parent[1].gradient only when the two parents have distinct
deep contents; when their contents compare equal it instead adds
2 * parent[0].value (without the gradient factor) to parent[0].gradient
only. -/
theorem c3_amended :
    (∀ (v₁ v₂ : ℚ) (l₁ l₂ : String) (powf : ℚ → ℚ → ℚ), (v₁ ≠ v₂ ∨ l₁ ≠ l₂) →
      (nd (backProp powf (mulTwoLeaves v₁ v₂ l₁ l₂) 2).1 0).gradient = v₂ ∧
      (nd (backProp powf (mulTwoLeaves v₁ v₂ l₁ l₂) 2).1 1).gradient = v₁) ∧
    (∀ (powf : ℚ → ℚ → ℚ) (g : Graph) (i p q : Nat),
      (nd g i).rule = some .rmul → (nd g i).parents = [p, q] →
      (snapNow g q ≠ snapNow g p →
        (applyRule powf g i).1 =
          addGrad (addGrad g p ((nd g q).data * (nd g i).gradient)) q
            ((nd g p).data * (nd g i).gradient)) ∧
      (snapNow g q = snapNow g p →
        (applyRule powf g i).1 = addGrad g p (2 * (nd g p).data))) := by
  constructor
  · intro v₁ v₂ l₁ l₂ powf h
    have h' : ¬ (v₂ = v₁ ∧ l₂ = l₁) := by
      rcases h with h | h
      · exact fun hc => h hc.1.symm
      · exact fun hc => h hc.2.symm
    simp only [mulTwoLeaves, mkVal, mkMul, nd, backProp]
    simp [backPropAux_succ, seen, applyRule, nd, snapNow, snapF, setGrad, addGrad,
      List.foldl, List.set, h']
    split_ifs <;> simp
  · intro powf g i p q hr hp
    constructor
    · intro hne
      simp [applyRule, hr, hp, hne]
    · intro heq
      simp [applyRule, hr, hp, heq]

/-- Claim C3, amended, witness at the concrete input v₁=2, v₂=3,
l₁="a", l₂="b". -/
theorem c3_witness :
    (nd (backProp qzero (mulTwoLeaves 2 3 "a" "b") 2).1 0).gradient = 3 ∧
    (nd (backProp qzero (mulTwoLeaves 2 3 "a" "b") 2).1 1).gradient = 2 :=
  c3_amended.1 2 3 "a" "b" qzero (Or.inl (by norm_num))

/-! ## Claim C4: sum of two leaves -/

/-- Claim C4, counterexample.  Two distinct leaf nodes with equal
contents (value 1, label "x"): the backward pass on their sum leaves
gradients (2, 0), not (1, 1) as the claim requires, because the
value-equality test in the Add rule conflates the two distinct nodes. -/
theorem c4_counterexample :
    ¬ ((nd (backProp qzero (addTwoLeaves 1 1 "x" "x") 2).1 0).gradient = 1 ∧
       (nd (backProp qzero (addTwoLeaves 1 1 "x" "x") 2).1 1).gradient = 1) := by
  with_unfolding_all exact of_decide_eq_true rfl

/-- Claim C4, amended.  For two leaves that differ in value or label,
the backward pass on their sum yields gradient 1 on each leaf. -/
theorem c4_distinct_leaves (v₁ v₂ : ℚ) (l₁ l₂ : String) (powf : ℚ → ℚ → ℚ)
    (h : v₁ ≠ v₂ ∨ l₁ ≠ l₂) :
    (nd (backProp powf (addTwoLeaves v₁ v₂ l₁ l₂) 2).1 0).gradient = 1 ∧
    (nd (backProp powf (addTwoLeaves v₁ v₂ l₁ l₂) 2).1 1).gradient = 1 := by
  have h' : ¬ (v₂ = v₁ ∧ l₂ = l₁) := by
    rcases h with h | h
    · exact fun hc => h hc.1.symm
    · exact fun hc => h hc.2.symm
  simp only [addTwoLeaves, mkVal, mkAdd, nd, backProp]
  simp [backPropAux_succ, seen, applyRule, nd, snapNow, snapF, setGrad, addGrad,
    List.foldl, List.set, h']
  split_ifs <;> simp

/-- Claim C4, amended, witness at the concrete input v₁=2, v₂=3,
l₁="a", l₂="b". -/
theorem c4_witness :
    (nd (backProp qzero (addTwoLeaves 2 3 "a" "b") 2).1 0).gradient = 1 ∧
    (nd (backProp qzero (addTwoLeaves 2 3 "a" "b") 2).1 1).gradient = 1 :=
  c4_distinct_leaves 2 3 "a" "b" qzero (Or.inl (by norm_num))

/-! ## Claim C5: self-reuse under addition, and the Add rule -/

/-- Claim C5, counterexample.  The claim's branch condition is "both
parents are the same node"; here the two parents of the Add node are the
distinct nodes 0 and 1 (which merely have equal contents), yet the pass
gives parent 0 gradient 2 and parent 1 gradient 0 instead of the claimed
"otherwise each parent's gradient is incremented by the Add node's
gradient" (which would give 1 and 1). -/
theorem c5_counterexample :
    (nd (addTwoLeaves 1 1 "x" "x") 2).parents = [0, 1] ∧
    (nd (backProp qzero (addTwoLeaves 1 1 "x" "x") 2).1 0).gradient = 2 ∧
    (nd (backProp qzero (addTwoLeaves 1 1 "x" "x") 2).1 1).gradient = 0 := by
  with_unfolding_all exact of_decide_eq_true rfl

/-- Claim C5, amended.  The backward pass on a + a (one leaf supplied as
both operands) yields gradient 2 on the leaf; the Add rule adds
2 * gradient to parent[0] exactly when the two parents have equal deep
contents (which includes, but is not limited to, their being the same
node), and adds the gradient to each parent otherwise. -/
theorem c5_amended :
    (∀ (v : ℚ) (lab : String) (powf : ℚ → ℚ → ℚ),
      (nd (backProp powf (addSelfLeaf v lab) 1).1 0).gradient = 2) ∧
    (∀ (powf : ℚ → ℚ → ℚ) (g : Graph) (i p q : Nat),
      (nd g i).rule = some .radd → (nd g i).parents = [p, q] →
      (snapNow g q = snapNow g p →
        (applyRule powf g i).1 = addGrad g p (2 * (nd g i).gradient)) ∧
      (snapNow g q ≠ snapNow g p →
        (applyRule powf g i).1 =
          addGrad (addGrad g p (nd g i).gradient) q (nd g i).gradient)) := by
  constructor
  · intro v lab powf
    simp only [addSelfLeaf, mkVal, mkAdd, nd, backProp]
    simp [backPropAux_succ, seen, applyRule, nd, snapNow, snapF, setGrad, addGrad,
      List.foldl, List.set]
  · intro powf g i p q hr hp
    constructor
    · intro heq
      simp [applyRule, hr, hp, heq]
    · intro hne
      simp [applyRule, hr, hp, hne]

/-- Claim C5, amended, witness: the leaf value 3 with label "a" for the
first part, and the Add node of two distinct leaves 2, 3 for the
rule-level part. -/
theorem c5_witness :
    (nd (backProp qzero (addSelfLeaf 3 "a") 1).1 0).gradient = 2 ∧
    (applyRule qzero (addTwoLeaves 2 3 "a" "b") 2).1 =
      addGrad (addGrad (addTwoLeaves 2 3 "a" "b") 0
        (nd (addTwoLeaves 2 3 "a" "b") 2).gradient) 1
        (nd (addTwoLeaves 2 3 "a" "b") 2).gradient := by
  refine ⟨c5_amended.1 3 "a" qzero, ?_⟩
  refine ((c5_amended.2 qzero (addTwoLeaves 2 3 "a" "b") 2 0 1 ?_ ?_).2 ?_)
  · with_unfolding_all exact of_decide_eq_true rfl
  · with_unfolding_all exact of_decide_eq_true rfl
  · with_unfolding_all exact of_decide_eq_true rfl

/-! ## Claim C6: self-reuse under multiplication -/

/-- Claim C6 (confirmed).  The backward pass on a * a (one leaf supplied
as both operands) yields gradient 2 * v_a on the leaf. -/
theorem c6_mul_self (v : ℚ) (lab : String) (powf : ℚ → ℚ → ℚ) :
    (nd (backProp powf (mulSelfLeaf v lab) 1).1 0).gradient = 2 * v := by
  simp only [mulSelfLeaf, mkVal, mkMul, nd, backProp]
  simp [backPropAux_succ, seen, applyRule, nd, snapNow, snapF, setGrad, addGrad,
    List.foldl, List.set]

/-! ## Claim C7: the power rule -/

/-- Claim C7, counterexample.  With b a leaf of value 2, a = relu(b)
and the terminal pow(a, b) (powf interpreted as qaddf), the backward
pass does not leave b's gradient unchanged: the DFS recurses from the
power node into a = relu(b), whose rule adds a's accumulated gradient
(6) to b; so the claim, quantified over every pair of nodes, fails. -/
theorem c7_counterexample :
    (nd (backProp qaddf powReluGraph 2).1 0).gradient = 6 ∧
    ¬ (nd (backProp qaddf powReluGraph 2).1 0).gradient = 0 := by
  with_unfolding_all exact of_decide_eq_true rfl

/-- Claim C7, amended.  For two leaf nodes a (base, index 0) and b
(exponent, index 1), the backward pass on pow(a, b) increments a's
gradient by b.value * powf(a.value, b.value - 1) times the power node's
seeded gradient 1, and leaves b's gradient unchanged at 0. -/
theorem c7_pow_leaves (powf : ℚ → ℚ → ℚ) (v₁ v₂ : ℚ) (l₁ l₂ : String) :
    (nd (backProp powf (powTwoLeaves powf v₁ v₂ l₁ l₂) 2).1 0).gradient =
      v₂ * powf v₁ (v₂ - 1) ∧
    (nd (backProp powf (powTwoLeaves powf v₁ v₂ l₁ l₂) 2).1 1).gradient = 0 := by
  simp only [powTwoLeaves, mkVal, mkPow, nd, backProp]
  simp [backPropAux_succ, seen, applyRule, nd, snapNow, snapF, setGrad, addGrad,
    List.foldl, List.set]
  split_ifs <;> simp

/-! ## Claim C8: relu forward and backward -/

/-- Claim C8 (confirmed).  The relu of any node has forward value
max(value, 0) (the source zeroes only strictly negative inputs, so an
input of 0 passes through as 0), while the backward pass on the relu of
a leaf increments the leaf's gradient by the relu node's gradient (the
seed 1) only when the leaf's value is strictly positive, and by 0
otherwise; in particular a leaf of value 0 is on the pass-through side
forward and the zero-gradient side backward. -/
theorem c8_relu :
    (∀ (g : Graph) (x : Nat),
      (nd (mkRelu g x).1 (mkRelu g x).2).data = max (nd g x).data 0) ∧
    (∀ (v : ℚ) (lab : String) (powf : ℚ → ℚ → ℚ),
      (nd (backProp powf (reluLeaf v lab) 1).1 0).gradient =
        if v > 0 then 1 else 0) ∧
    (nd (reluLeaf 0 "z") 1).data = 0 ∧
    (nd (backProp qzero (reluLeaf 0 "z") 1).1 0).gradient = 0 := by
  refine ⟨?_, ?_, ?_, ?_⟩
  · intro g x
    have : nd (g ++ [⟨if (nd g x).data < 0 then 0 else (nd g x).data, 0, none,
        some .rrelu, [x]⟩]) g.length =
        ⟨if (nd g x).data < 0 then 0 else (nd g x).data, 0, none, some .rrelu, [x]⟩ := by
      simp [nd, List.getElem?_append_right (Nat.le_refl g.length)]
    rw [mkRelu, this]
    rcases lt_or_le (nd g x).data 0 with h | h
    · simp [h, le_of_lt h, max_eq_right]
    · simp [not_lt.mpr h, max_eq_left h]
  · intro v lab powf
    simp only [reluLeaf, mkVal, mkRelu, nd, backProp]
    simp [backPropAux_succ, seen, applyRule, nd, snapNow, snapF, setGrad, addGrad,
      List.foldl, List.set]
  · with_unfolding_all exact of_decide_eq_true rfl
  · with_unfolding_all exact of_decide_eq_true rfl

/-! ## Claim C10: the backward pass as a sequence of write events -/

/-- Replay an event trace over a graph: assign overwrites a gradient,
add accumulates into one, fire touches nothing. -/
def replay (g : Graph) (evs : List Ev) : Graph :=
  evs.foldl
    (fun h e =>
      match e with
      | .assign i v => setGrad h i v
      | .add i v => addGrad h i v
      | .fire _ => h)
    g

/-- Total amount added to node j by the add events of a trace. -/
def addSum (j : Nat) (evs : List Ev) : ℚ :=
  (evs.map
    (fun e =>
      match e with
      | .add i v => if i = j then v else 0
      | _ => 0)).sum

theorem replay_append (g : Graph) (l₁ l₂ : List Ev) :
    replay g (l₁ ++ l₂) = replay (replay g l₁) l₂ :=
  List.foldl_append ..

theorem length_setGrad (g : Graph) (i : Nat) (v : ℚ) :
    (setGrad g i v).length = g.length := by
  simp [setGrad]

theorem length_addGrad (g : Graph) (i : Nat) (v : ℚ) :
    (addGrad g i v).length = g.length := by
  simp [addGrad]

theorem length_replay (g : Graph) (evs : List Ev) :
    (replay g evs).length = g.length := by
  induction evs generalizing g with
  | nil => rfl
  | cons e evs ih =>
    rcases e with ⟨i, v⟩ | ⟨i, v⟩ | i
    · show (replay (setGrad g i v) evs).length = g.length
      rw [ih, length_setGrad]
    · show (replay (addGrad g i v) evs).length = g.length
      rw [ih, length_addGrad]
    · exact ih g

/-- The graph a propagate function produces is the replay of the events
it reports. -/
theorem applyRule_replay (powf : ℚ → ℚ → ℚ) (g : Graph) (i : Nat) :
    (applyRule powf g i).1 = replay g (applyRule powf g i).2 := by
  rcases hr : (nd g i).rule with _ | r
  · simp [applyRule, hr, replay]
  rcases r <;> rcases hp : (nd g i).parents with _ | ⟨p, _ | ⟨q, _ | _⟩⟩ <;>
    simp only [applyRule, hr, hp] <;>
    first
      | rfl
      | (split <;> rfl)

/-- Every event a propagate function reports is the fire of the node
itself or an add targeting one of its parents. -/
theorem applyRule_events (powf : ℚ → ℚ → ℚ) (g : Graph) (i : Nat) :
    ∀ e ∈ (applyRule powf g i).2,
      e = .fire i ∨ ∃ p v, e = .add p v ∧ p ∈ (nd g i).parents := by
  rcases hr : (nd g i).rule with _ | r
  · simp [applyRule, hr]
  rcases r <;> rcases hp : (nd g i).parents with _ | ⟨p, _ | ⟨q, _ | _⟩⟩ <;>
    simp only [applyRule, hr, hp] <;>
    first
      | (simp; done)
      | (split <;> simp)

/-- Acyclicity by construction: every parent index is strictly smaller
than its child's index.  All graphs built by the operators satisfy it. -/
def wfG (g : Graph) : Prop := ∀ i, ∀ p ∈ (nd g i).parents, p < i

instance (g : Graph) : Decidable (wfG g) := by
  have h : wfG g ↔ ∀ i ∈ List.range g.length, ∀ p ∈ (nd g i).parents, p < i := by
    constructor
    · intro h i _; exact h i
    · intro h i
      by_cases hi : i < g.length
      · exact h i (List.mem_range.mpr hi)
      · rw [nd_oob g i (by omega)]
        intro p hp
        cases hp
  exact decidable_of_iff' _ h

theorem wfG_of_shape {g g' : Graph} (hs : shape g' = shape g) (h : wfG g) : wfG g' := by
  intro i
  rw [(shape_eq_fields hs i).2.2.2]
  exact h i

/-- Master event lemma for the DFS: starting from node i on an acyclic
graph, the DFS appends a trace of fire events (of nodes ≤ i) and add
events (targeting nodes < i), and the graph it returns is the replay of
that trace. -/
theorem backPropAux_events (powf : ℚ → ℚ → ℚ) :
    ∀ (fuel : Nat) (st : Graph × Visited × List Ev) (i : Nat), wfG st.1 →
      ∃ Δ, (backPropAux powf fuel st i).2.2 = st.2.2 ++ Δ ∧
        (backPropAux powf fuel st i).1 = replay st.1 Δ ∧
        ∀ e ∈ Δ, (∃ j v, e = .add j v ∧ j < i) ∨ (∃ j, e = .fire j ∧ j ≤ i) := by
  intro fuel
  induction fuel with
  | zero =>
    intro st i _
    obtain ⟨g, vis, evs⟩ := st
    exact ⟨[], by rw [List.append_nil]; try rfl, rfl, by simp⟩
  | succ fuel ih =>
    intro st i hwf
    obtain ⟨g, vis, evs⟩ := st
    rw [backPropAux_succ]
    split
    · exact ⟨[], by rw [List.append_nil]; try rfl, rfl, by simp⟩
    · have hrule := applyRule_events powf g i
      have hwf₁ : wfG (applyRule powf g i).1 :=
        wfG_of_shape (shape_applyRule powf g i) hwf
      have hpar : ∀ p ∈ (nd (applyRule powf g i).1 i).parents, p < i := by
        intro p hp
        exact hwf₁ i p hp
      have fold :
          ∀ (l : List Nat) (st₀ : Graph × Visited × List Ev), wfG st₀.1 →
            (∀ p ∈ l, p < i) →
            ∃ Δ, (l.foldl (backPropAux powf fuel) st₀).2.2 = st₀.2.2 ++ Δ ∧
              (l.foldl (backPropAux powf fuel) st₀).1 = replay st₀.1 Δ ∧
              ∀ e ∈ Δ, (∃ j v, e = .add j v ∧ j < i) ∨ (∃ j, e = .fire j ∧ j < i) := by
        intro l
        induction l with
        | nil =>
          intro st₀ _ _
          exact ⟨[], by simp, by simp [replay], by simp⟩
        | cons p l ihl =>
          intro st₀ hwf₀ hlt
          obtain ⟨Δ₁, h1, h2, h3⟩ := ih st₀ p (hwf₀)
          obtain ⟨Δ₂, h4, h5, h6⟩ :=
            ihl (backPropAux powf fuel st₀ p)
              (wfG_of_shape (shape_backPropAux powf fuel st₀ p) hwf₀)
              (fun q hq => hlt q (List.mem_cons_of_mem p hq))
          refine ⟨Δ₁ ++ Δ₂, ?_, ?_, ?_⟩
          · simp only [List.foldl_cons, h4, h1, List.append_assoc]
          · simp only [List.foldl_cons, h5, h2, replay_append]
          · intro e he
            rcases List.mem_append.mp he with he | he
            · rcases h3 e he with ⟨j, v, hj, hlt'⟩ | ⟨j, hj, hle⟩
              · exact Or.inl ⟨j, v, hj, lt_of_lt_of_le hlt' (Nat.le_of_lt (hlt p (by simp)))⟩
              · exact Or.inr ⟨j, hj, lt_of_le_of_lt hle (hlt p (by simp))⟩
            · exact h6 e he
      obtain ⟨Δ, h1, h2, h3⟩ :=
        fold (nd (applyRule powf g i).1 i).parents
          ((applyRule powf g i).1, vis ++ [(i, snapNow g i)], evs ++ (applyRule powf g i).2)
          hwf₁ hpar
      refine ⟨(applyRule powf g i).2 ++ Δ, ?_, ?_, ?_⟩
      · simp only at h1
        rw [h1, List.append_assoc]
      · simp only at h2
        rw [h2, replay_append, ← applyRule_replay]
      · intro e he
        rcases List.mem_append.mp he with he | he
        · rcases hrule e he with hf | ⟨p, v, hpv, hmem⟩
          · exact Or.inr ⟨i, hf, le_refl i⟩
          · exact Or.inl ⟨p, v, hpv, hwf i p hmem⟩
        · rcases h3 e he with ⟨j, v, hj, hlt'⟩ | ⟨j, hj, hlt'⟩
          · exact Or.inl ⟨j, v, hj, hlt'⟩
          · exact Or.inr ⟨j, hj, Nat.le_of_lt hlt'⟩

/-- Replaying a trace of in-range adds and fires changes each gradient
by exactly the sum of the adds that target it. -/
theorem replay_grad (evs : List Ev) :
    ∀ (g : Graph) (j : Nat),
      (∀ e ∈ evs, (∃ k v, e = .add k v ∧ k < g.length) ∨ ∃ k, e = .fire k) →
      (nd (replay g evs) j).gradient = (nd g j).gradient + addSum j evs := by
  induction evs with
  | nil => intro g j _; simp [replay, addSum]
  | cons e evs ih =>
    intro g j h
    rcases h e (by simp) with ⟨k, v, rfl, hk⟩ | ⟨k, rfl⟩
    · have step : replay g (Ev.add k v :: evs) = replay (addGrad g k v) evs := rfl
      rw [step, ih (addGrad g k v) j
        (fun e he => by
          rcases h e (List.mem_cons_of_mem _ he) with ⟨k', v', rfl, hk'⟩ | ⟨k', rfl⟩
          · exact Or.inl ⟨k', v', rfl, by rwa [length_addGrad]⟩
          · exact Or.inr ⟨k', rfl⟩)]
      rw [nd_addGrad]
      by_cases hkj : k = j
      · subst hkj
        simp [hk, addSum, add_assoc]
      · simp [hkj, addSum]
    · have step : replay g (Ev.fire k :: evs) = replay g evs := rfl
      rw [step, ih g j (fun e he => h e (List.mem_cons_of_mem _ he))]
      simp [addSum]

/-- If no add event targets j, the total added to j is zero. -/
theorem addSum_eq_zero (j : Nat) (evs : List Ev)
    (h : ∀ v, Ev.add j v ∉ evs) : addSum j evs = 0 := by
  induction evs with
  | nil => rfl
  | cons e evs ih =>
    have h' : ∀ v, Ev.add j v ∉ evs := fun v hv => h v (List.mem_cons_of_mem _ hv)
    rcases e with ⟨k, v⟩ | ⟨k, v⟩ | k
    · simpa [addSum] using ih h'
    · have hkj : ¬ k = j := by
        intro hk
        subst hk
        exact h v (by simp)
      simpa [addSum, hkj] using ih h'
    · simpa [addSum] using ih h'

/-- Claim C10 (confirmed).  On an acyclic graph, the backward pass from
terminal t emits exactly one assignment event -- the initial seed of t's
gradient to 1 -- followed by a trace Δ of fire and add events only; t's
gradient after the pass is exactly 1 regardless of its value before the
call, and every other node's gradient after the pass is its gradient
before the call plus the sum of the add contributions of Δ that target
it (so residues from a previous pass persist and accumulate unless
reset_gradient zeroes them first). -/
theorem c10_seed_overwritten_others_additive (powf : ℚ → ℚ → ℚ) (g : Graph) (t : Nat)
    (hwf : wfG g) (ht : t < g.length) :
    (nd (backProp powf g t).1 t).gradient = 1 ∧
    ∃ Δ, (backProp powf g t).2.2 = Ev.assign t 1 :: Δ ∧
      (∀ e ∈ Δ, ∀ j v, e ≠ Ev.assign j v) ∧
      ∀ j, j ≠ t →
        (nd (backProp powf g t).1 j).gradient = (nd g j).gradient + addSum j Δ := by
  obtain ⟨Δ, h1, h2, h3⟩ :=
    backPropAux_events powf (t + 1) (setGrad g t 1, [], [.assign t 1]) t
      (wfG_of_shape (shape_setGrad g t 1) hwf)
  have hin : ∀ e ∈ Δ, (∃ k v, e = .add k v ∧ k < (setGrad g t 1).length) ∨
      ∃ k, e = .fire k := by
    intro e he
    rcases h3 e he with ⟨j, v, rfl, hj⟩ | ⟨j, rfl, _⟩
    · exact Or.inl ⟨j, v, rfl, by rw [length_setGrad]; omega⟩
    · exact Or.inr ⟨j, rfl⟩
  have hout1 : (backProp powf g t).1 = replay (setGrad g t 1) Δ := h2
  constructor
  · rw [hout1, replay_grad Δ _ t hin, nd_setGrad]
    have hz : addSum t Δ = 0 := by
      apply addSum_eq_zero
      intro v hv
      rcases h3 _ hv with ⟨j, v', hj, hlt⟩ | ⟨j, hj, _⟩
      · cases hj; omega
      · cases hj
    simp [ht, hz]
  · refine ⟨Δ, ?_, ?_, ?_⟩
    · simpa using h1
    · intro e he j v hev
      subst hev
      rcases h3 _ he with ⟨j', v', hj, _⟩ | ⟨j', hj, _⟩ <;> cases hj
    · intro j hj
      rw [hout1, replay_grad Δ _ j hin, nd_setGrad,
        if_neg (fun hc => hj hc.1.symm)]

/-- Claim C10 witness at the concrete graph addTwoLeaves 2 3 "a" "b"
with terminal 2. -/
theorem c10_witness :
    (nd (backProp qzero (addTwoLeaves 2 3 "a" "b") 2).1 2).gradient = 1 ∧
    ∃ Δ, (backProp qzero (addTwoLeaves 2 3 "a" "b") 2).2.2 = Ev.assign 2 1 :: Δ ∧
      (∀ e ∈ Δ, ∀ j v, e ≠ Ev.assign j v) ∧
      ∀ j, j ≠ 2 →
        (nd (backProp qzero (addTwoLeaves 2 3 "a" "b") 2).1 j).gradient =
          (nd (addTwoLeaves 2 3 "a" "b") j).gradient + addSum j Δ :=
  c10_seed_overwritten_others_additive qzero (addTwoLeaves 2 3 "a" "b") 2
    (by with_unfolding_all exact of_decide_eq_true rfl)
    (by with_unfolding_all exact of_decide_eq_true rfl)

/-! ## Claims C1 and C9: general graphs built from the operators

The spec-side object of claim C1 is the multi-path chain rule: the sum,
over every path from a node to the seeded terminal, of the product of the
local derivatives along the path.  specLocalDeriv and specSumPaths below
are modelled from the spec's operator table (the refinement side of the
claim); everything else is translated from the source. -/

/-- Modelled from the spec's operator table: the local derivative of
node t with respect to its k-th parent.  Add: 1 for each operand;
Multiply: the other operand's value; Power: the base-derivative for the
base and 0 for the exponent (the exponent branch is not implemented);
Relu: 1 if the input is strictly positive, else 0. -/
def specLocalDeriv (powf : ℚ → ℚ → ℚ) (g : Graph) (t k : Nat) : ℚ :=
  match (nd g t).rule, (nd g t).parents with
  | some .radd, [_, _] => 1
  | some .rmul, [p, q] => if k = 0 then (nd g q).data else (nd g p).data
  | some .rpow, [p, q] =>
    if k = 0 then (nd g q).data * powf (nd g p).data ((nd g q).data - 1) else 0
  | some .rrelu, [p] => if (nd g p).data > 0 then 1 else 0
  | _, _ => 0

/-- Sum over all parent-link paths from node t down to node i of the
product of the local derivatives along the path, with explicit fuel
(each step moves to a strictly smaller index, so fuel t + 1 suffices on
graphs built by the operators). -/
def sumPathsF (powf : ℚ → ℚ → ℚ) (g : Graph) : Nat → Nat → Nat → ℚ
  | 0, _, _ => 0
  | fuel + 1, t, i =>
    (if i = t then 1 else 0) +
      ((List.range (nd g t).parents.length).map
        (fun k => specLocalDeriv powf g t k *
          sumPathsF powf g fuel ((nd g t).parents.getD k 0) i)).sum

/-- The chain-rule value of claim C1: the sum over every path from node
i to the terminal t of the product of the local derivatives along the
path. -/
def specSumPaths (powf : ℚ → ℚ → ℚ) (g : Graph) (t i : Nat) : ℚ :=
  sumPathsF powf g (t + 1) t i

/-- Binary operators of the source's operator layer (negate is sugar for
multiplication by a -1 leaf and has no rule of its own). -/
inductive BOp where
  | badd
  | bmul
  | bpow
deriving DecidableEq, Repr

/-- The rule each binary operator installs. -/
def ruleOfB : BOp → Rule
  | .badd => .radd
  | .bmul => .rmul
  | .bpow => .rpow

/-- Expression trees over the source's operators: the computation graphs
in which every node is consumed by exactly one later operation.  Leaves
carry the value and label they are created with. -/
inductive Expr where
  | leaf (d : ℚ) (lab : Option String)
  | bin (op : BOp) (l r : Expr)
  | un (e : Expr)
deriving DecidableEq, Repr

/-- Number of nodes of an expression tree. -/
def esize : Expr → Nat
  | .leaf _ _ => 1
  | .bin _ l r => esize l + esize r + 1
  | .un e => esize e + 1

/-- Forward value of an expression, mirroring the result values computed
by the operators (mkAdd, mkMul, mkPow, mkRelu). -/
def evalE (powf : ℚ → ℚ → ℚ) : Expr → ℚ
  | .leaf d _ => d
  | .bin .badd l r => evalE powf l + evalE powf r
  | .bin .bmul l r => evalE powf l * evalE powf r
  | .bin .bpow l r => powf (evalE powf l) (evalE powf r)
  | .un e => if evalE powf e < 0 then 0 else evalE powf e

/-- Compile an expression tree into the arena at base index b: the left
operand occupies indices starting at b, then the right operand, then the
operation node -- exactly the graph obtained by applying the source's
operators in evaluation order.  Each node record coincides with the one
the corresponding operator (Val::new, Add, Mul, pow, relu) allocates. -/
def compileAux (powf : ℚ → ℚ → ℚ) : Expr → Nat → Graph
  | .leaf d lab, _ => [⟨d, 0, lab, none, []⟩]
  | .bin op l r, b =>
    compileAux powf l b ++ compileAux powf r (b + esize l) ++
      [⟨evalE powf (.bin op l r), 0, none, some (ruleOfB op),
        [b + esize l - 1, b + esize l + esize r - 1]⟩]
  | .un e, b =>
    compileAux powf e b ++
      [⟨evalE powf (.un e), 0, none, some .rrelu, [b + esize e - 1]⟩]

/-- The graph of a whole expression tree (root index esize E - 1). -/
def compileG (powf : ℚ → ℚ → ℚ) (E : Expr) : Graph := compileAux powf E 0

/-- Gradient-free skeleton of the snapshot of a compiled (sub)tree. -/
def skel (powf : ℚ → ℚ → ℚ) : Expr → Snap
  | .leaf d lab => .n0 d 0 lab none
  | .bin op l r =>
    .n2 (evalE powf (.bin op l r)) 0 none (some (ruleOfB op)) (skel powf l) (skel powf r)
  | .un e => .n1 (evalE powf (.un e)) 0 none (some .rrelu) (skel powf e)

/-- Erase every gradient of a snapshot. -/
def eraseGrad : Snap → Snap
  | .bad => .bad
  | .n0 d _ lab op => .n0 d 0 lab op
  | .n1 d _ lab op p => .n1 d 0 lab op (eraseGrad p)
  | .n2 d _ lab op p q => .n2 d 0 lab op (eraseGrad p) (eraseGrad q)

/-- All subtrees of an expression (including itself), one entry per
occurrence. -/
def subtreesList : Expr → List Expr
  | .leaf d lab => [.leaf d lab]
  | .bin op l r => .bin op l r :: (subtreesList l ++ subtreesList r)
  | .un e => .un e :: subtreesList e

/-- Local derivative of a binary node with respect to its left operand,
per the spec's table. -/
def dLeft (powf : ℚ → ℚ → ℚ) (op : BOp) (l r : Expr) : ℚ :=
  match op with
  | .badd => 1
  | .bmul => evalE powf r
  | .bpow => evalE powf r * powf (evalE powf l) (evalE powf r - 1)

/-- Local derivative of a binary node with respect to its right operand
(0 for the power node's exponent). -/
def dRight (powf : ℚ → ℚ → ℚ) (op : BOp) (l r : Expr) : ℚ :=
  match op with
  | .badd => 1
  | .bmul => evalE powf l
  | .bpow => 0

/-- Local derivative of a relu node with respect to its input. -/
def dRelu (powf : ℚ → ℚ → ℚ) (e : Expr) : ℚ :=
  if evalE powf e > 0 then 1 else 0

/-- Product of the local derivatives along the unique path from the root
of the subtree compiled at base b down to node i; 0 for i outside the
subtree.  In a tree this is the value of the chain-rule path sum below
the subtree root. -/
def dp (powf : ℚ → ℚ → ℚ) : Expr → Nat → Nat → ℚ
  | .leaf _ _, b, i => if i = b then 1 else 0
  | .bin op l r, b, i =>
    if i = b + esize l + esize r then 1
    else dLeft powf op l r * dp powf l b i + dRight powf op l r * dp powf r (b + esize l) i
  | .un e, b, i =>
    if i = b + esize e then 1 else dRelu powf e * dp powf e b i

/-- Amount the rule of a binary node adds to its left operand when the
node's own gradient is γ, in exactly the syntactic form the propagate
function computes it. -/
def aL (powf : ℚ → ℚ → ℚ) (op : BOp) (l r : Expr) (γ : ℚ) : ℚ :=
  match op with
  | .badd => γ
  | .bmul => evalE powf r * γ
  | .bpow => evalE powf r * powf (evalE powf l) (evalE powf r - 1) * γ

/-- Amount the rule of a binary node adds to its right operand (the
power rule adds nothing to the exponent). -/
def aR (powf : ℚ → ℚ → ℚ) (op : BOp) (l r : Expr) (γ : ℚ) : ℚ :=
  match op with
  | .badd => γ
  | .bmul => evalE powf l * γ
  | .bpow => 0

/-- The events of one invocation of a binary node's rule with
accumulated gradient γ, in exactly the form the propagate function
reports them. -/
def binRuleEvs (powf : ℚ → ℚ → ℚ) (op : BOp) (l r : Expr) (b : Nat) (γ : ℚ) :
    List Ev :=
  match op with
  | .badd =>
    [.fire (b + esize l + esize r), .add (b + esize l - 1) γ,
      .add (b + esize l + esize r - 1) γ]
  | .bmul =>
    [.fire (b + esize l + esize r),
      .add (b + esize l - 1) (evalE powf r * γ),
      .add (b + esize l + esize r - 1) (evalE powf l * γ)]
  | .bpow =>
    [.fire (b + esize l + esize r),
      .add (b + esize l - 1)
        (evalE powf r * powf (evalE powf l) (evalE powf r - 1) * γ)]

/-- The event trace the DFS produces on the subtree compiled at base b
when it enters the subtree root with accumulated gradient γ: the root's
rule fires, adds its contributions to the operand roots, then the left
and right subtrees are traversed in order. -/
def blockEvs (powf : ℚ → ℚ → ℚ) : Expr → Nat → ℚ → List Ev
  | .leaf _ _, _, _ => []
  | .bin op l r, b, γ =>
    binRuleEvs powf op l r b γ ++
    blockEvs powf l b (aL powf op l r γ) ++
    blockEvs powf r (b + esize l) (aR powf op l r γ)
  | .un e, b, γ =>
    [.fire (b + esize e), .add (b + esize e - 1) (if evalE powf e > 0 then γ else 0)] ++
    blockEvs powf e b (if evalE powf e > 0 then γ else 0)

/-- The compiled fields of the subtree rooted at base b, as read through
nd: the block of an expression matches the records the operators
allocate.  Gradients are unconstrained. -/
def blockAt (powf : ℚ → ℚ → ℚ) (g : Graph) : Expr → Nat → Prop
  | .leaf d lab, b =>
    (nd g b).data = d ∧ (nd g b).label = lab ∧ (nd g b).rule = none ∧
    (nd g b).parents = []
  | .bin op l r, b =>
    blockAt powf g l b ∧ blockAt powf g r (b + esize l) ∧
    (nd g (b + esize l + esize r)).data = evalE powf (.bin op l r) ∧
    (nd g (b + esize l + esize r)).label = none ∧
    (nd g (b + esize l + esize r)).rule = some (ruleOfB op) ∧
    (nd g (b + esize l + esize r)).parents =
      [b + esize l - 1, b + esize l + esize r - 1]
  | .un e, b =>
    blockAt powf g e b ∧
    (nd g (b + esize e)).data = evalE powf (.un e) ∧
    (nd g (b + esize e)).label = none ∧
    (nd g (b + esize e)).rule = some .rrelu ∧
    (nd g (b + esize e)).parents = [b + esize e - 1]

theorem esize_pos (E : Expr) : 1 ≤ esize E := by
  cases E <;> simp [esize] <;> omega

theorem self_mem_subtreesList (E : Expr) : E ∈ subtreesList E := by
  cases E <;> simp [subtreesList]

theorem esize_le_of_mem_subtreesList :
    ∀ (E E' : Expr), E' ∈ subtreesList E → esize E' ≤ esize E := by
  intro E
  induction E with
  | leaf d lab =>
    intro E' h
    simp [subtreesList] at h
    subst h
    exact le_refl _
  | bin op l r ihl ihr =>
    intro E' h
    simp [subtreesList] at h
    rcases h with rfl | h | h
    · exact le_refl _
    · have := ihl E' h
      simp [esize]; omega
    · have := ihr E' h
      simp [esize]; omega
  | un e ih =>
    intro E' h
    simp [subtreesList] at h
    rcases h with rfl | h
    · exact le_refl _
    · have := ih E' h
      simp [esize]; omega

theorem ruleOfB_inj : ∀ o o' : BOp, ruleOfB o = ruleOfB o' → o = o' := by
  intro o o'
  cases o <;> cases o' <;> simp [ruleOfB]

/-- The skeleton determines the expression. -/
theorem skel_inj (powf : ℚ → ℚ → ℚ) :
    ∀ E E' : Expr, skel powf E = skel powf E' → E = E' := by
  intro E
  induction E with
  | leaf d lab =>
    intro E' h
    cases E' <;> simp [skel] at h ⊢
    exact h
  | bin op l r ihl ihr =>
    intro E' h
    cases E' <;> simp [skel] at h ⊢
    obtain ⟨-, hop, hl, hr⟩ := h
    exact ⟨ruleOfB_inj _ _ hop, ihl _ hl, ihr _ hr⟩
  | un e ih =>
    intro E' h
    cases E' <;> simp [skel] at h ⊢
    exact ih _ h.2

theorem length_compileAux (powf : ℚ → ℚ → ℚ) :
    ∀ (E : Expr) (b : Nat), (compileAux powf E b).length = esize E := by
  intro E
  induction E with
  | leaf d lab => intro b; simp [compileAux, esize]
  | bin op l r ihl ihr =>
    intro b
    simp [compileAux, esize, ihl, ihr]
    omega
  | un e ih =>
    intro b
    simp [compileAux, esize, ih]

theorem nd_append_lt (g₁ g₂ : Graph) (i : Nat) (h : i < g₁.length) :
    nd (g₁ ++ g₂) i = nd g₁ i := by
  simp [nd, List.getElem?_append, h]

theorem nd_append_ge (g₁ g₂ : Graph) (i : Nat) (h : g₁.length ≤ i) :
    nd (g₁ ++ g₂) i = nd g₂ (i - g₁.length) := by
  simp [nd, List.getElem?_append, Nat.not_lt.mpr h]

/-- dp vanishes outside the subtree's index block. -/
theorem dp_out (powf : ℚ → ℚ → ℚ) :
    ∀ (E : Expr) (b i : Nat), (i < b ∨ b + esize E ≤ i) → dp powf E b i = 0 := by
  intro E
  induction E with
  | leaf d lab =>
    intro b i h
    have : ¬ i = b := by simp [esize] at h; omega
    simp [dp, this]
  | bin op l r ihl ihr =>
    intro b i h
    simp only [esize] at h
    have h1 : ¬ i = b + esize l + esize r := by omega
    have h2 : dp powf l b i = 0 := ihl b i (by omega)
    have h3 : dp powf r (b + esize l) i = 0 := ihr (b + esize l) i (by omega)
    simp [dp, h1, h2, h3]
  | un e ih =>
    intro b i h
    simp only [esize] at h
    have h1 : ¬ i = b + esize e := by omega
    have h2 : dp powf e b i = 0 := ih b i (by omega)
    simp [dp, h1, h2]

theorem blockAt_of_shape (powf : ℚ → ℚ → ℚ) {g g' : Graph}
    (hs : shape g' = shape g) :
    ∀ (E : Expr) (b : Nat), blockAt powf g E b → blockAt powf g' E b := by
  intro E
  induction E with
  | leaf d lab =>
    intro b h
    obtain ⟨h1, h2, h3, h4⟩ := h
    obtain ⟨f1, f2, f3, f4⟩ := shape_eq_fields hs b
    exact ⟨f1.trans h1, f2.trans h2, f3.trans h3, f4.trans h4⟩
  | bin op l r ihl ihr =>
    intro b h
    obtain ⟨hl, hr, h1, h2, h3, h4⟩ := h
    obtain ⟨f1, f2, f3, f4⟩ := shape_eq_fields hs (b + esize l + esize r)
    exact ⟨ihl b hl, ihr _ hr, f1.trans h1, f2.trans h2, f3.trans h3, f4.trans h4⟩
  | un e ih =>
    intro b h
    obtain ⟨he, h1, h2, h3, h4⟩ := h
    obtain ⟨f1, f2, f3, f4⟩ := shape_eq_fields hs (b + esize e)
    exact ⟨ih b he, f1.trans h1, f2.trans h2, f3.trans h3, f4.trans h4⟩

/-- A graph that agrees with the compiled block on the block's index
range satisfies blockAt. -/
theorem blockAt_of_reads (powf : ℚ → ℚ → ℚ) :
    ∀ (E : Expr) (g : Graph) (b : Nat),
      (∀ k, k < esize E → g[b + k]? = (compileAux powf E b)[k]?) →
      blockAt powf g E b := by
  intro E
  induction E with
  | leaf d lab =>
    intro g b h
    have h0 := h 0 (by simp [esize])
    simp only [compileAux, Nat.add_zero, List.getElem?_cons_zero] at h0
    refine ⟨?_, ?_, ?_, ?_⟩ <;> simp [nd, h0]
  | bin op l r ihl ihr =>
    intro g b h
    have hlenA : (compileAux powf l b).length = esize l := length_compileAux powf l b
    have hlenB : (compileAux powf r (b + esize l)).length = esize r :=
      length_compileAux powf r (b + esize l)
    have hlenAB : (compileAux powf l b ++ compileAux powf r (b + esize l)).length =
        esize l + esize r := by
      simp [hlenA, hlenB]
    refine ⟨?_, ?_, ?_, ?_, ?_, ?_⟩
    case _ =>
      apply ihl
      intro k hk
      have hh := h k (by simp [esize]; omega)
      rw [compileAux] at hh
      rw [List.getElem?_append, if_pos (by rw [hlenAB]; omega),
        List.getElem?_append, if_pos (by rw [hlenA]; omega)] at hh
      exact hh
    case _ =>
      apply ihr
      intro k hk
      have hh := h (esize l + k) (by simp [esize]; omega)
      rw [compileAux] at hh
      rw [List.getElem?_append, if_pos (by rw [hlenAB]; omega),
        List.getElem?_append, if_neg (by rw [hlenA]; omega)] at hh
      rw [hlenA] at hh
      have harith : b + (esize l + k) = b + esize l + k := by omega
      have harith2 : esize l + k - esize l = k := by omega
      rw [harith, harith2] at hh
      exact hh
    all_goals
      have hh := h (esize l + esize r) (by simp [esize])
      rw [compileAux] at hh
      rw [List.getElem?_append, if_neg (by rw [hlenAB]; omega), hlenAB] at hh
      have harith : esize l + esize r - (esize l + esize r) = 0 := by omega
      rw [harith] at hh
      simp only [List.getElem?_cons_zero] at hh
      have harith2 : b + (esize l + esize r) = b + esize l + esize r := by omega
      rw [harith2] at hh
      simp [nd, hh, evalE]
  | un e ih =>
    intro g b h
    have hlenA : (compileAux powf e b).length = esize e := length_compileAux powf e b
    refine ⟨?_, ?_, ?_, ?_, ?_⟩
    case _ =>
      apply ih
      intro k hk
      have hh := h k (by simp [esize]; omega)
      rw [compileAux] at hh
      rw [List.getElem?_append, if_pos (by rw [hlenA]; omega)] at hh
      exact hh
    all_goals
      have hh := h (esize e) (by simp [esize])
      rw [compileAux] at hh
      rw [List.getElem?_append, if_neg (by rw [hlenA]; omega), hlenA] at hh
      have harith : esize e - esize e = 0 := by omega
      rw [harith] at hh
      simp only [List.getElem?_cons_zero] at hh
      simp [nd, hh, evalE]

/-- The compiled graph of a whole expression satisfies blockAt at 0. -/
theorem blockAt_compileG (powf : ℚ → ℚ → ℚ) (E : Expr) :
    blockAt powf (compileG powf E) E 0 := by
  apply blockAt_of_reads
  intro k _
  simp [compileG]

/-- All gradients of a freshly compiled graph are zero. -/
theorem compileAux_grad_zero (powf : ℚ → ℚ → ℚ) :
    ∀ (E : Expr) (b k : Nat), (nd (compileAux powf E b) k).gradient = 0 := by
  intro E
  induction E with
  | leaf d lab =>
    intro b k
    rcases k with _ | k <;> simp [compileAux, nd, default]
  | bin op l r ihl ihr =>
    intro b k
    by_cases h1 : k < (compileAux powf l b).length
    · rw [compileAux, List.append_assoc, nd_append_lt _ _ _ h1]
      exact ihl b k
    · rw [compileAux, List.append_assoc, nd_append_ge _ _ _ (by omega)]
      by_cases h2 : k - (compileAux powf l b).length <
          (compileAux powf r (b + esize l)).length
      · rw [nd_append_lt _ _ _ h2]
        exact ihr (b + esize l) _
      · rw [nd_append_ge _ _ _ (by omega)]
        rcases hk : (k - (compileAux powf l b).length -
            (compileAux powf r (b + esize l)).length) with _ | m <;>
          simp [nd, default, hk]
  | un e ih =>
    intro b k
    by_cases h1 : k < (compileAux powf e b).length
    · rw [compileAux, nd_append_lt _ _ _ h1]
      exact ih b k
    · rw [compileAux, nd_append_ge _ _ _ (by omega)]
      rcases hk : (k - (compileAux powf e b).length) with _ | m <;>
        simp [nd, default, hk]

/-- The gradient-erased deep snapshot of a compiled subtree's root is
its skeleton, whatever the current gradients are. -/
theorem snap_block (powf : ℚ → ℚ → ℚ) :
    ∀ (E : Expr) (g : Graph) (b fuel : Nat), blockAt powf g E b → esize E ≤ fuel →
      eraseGrad (snapF g fuel (b + esize E - 1)) = skel powf E := by
  intro E
  induction E with
  | leaf d lab =>
    intro g b fuel hb hf
    obtain ⟨h1, h2, h3, h4⟩ := hb
    rcases fuel with _ | f
    · simp [esize] at hf
    have hroot : b + esize (Expr.leaf d lab) - 1 = b := by simp only [esize]; omega
    rw [hroot]
    simp only [snapF, h4]
    simp [eraseGrad, skel, h1, h2, h3]
  | bin op l r ihl ihr =>
    intro g b fuel hb hf
    obtain ⟨hl, hr, h1, h2, h3, h4⟩ := hb
    rcases fuel with _ | f
    · simp [esize] at hf
    have hroot : b + esize (Expr.bin op l r) - 1 = b + esize l + esize r := by
      simp only [esize]; omega
    rw [hroot]
    simp only [snapF, h4]
    have hfl : esize l ≤ f := by
      simp [esize] at hf
      have := esize_pos r
      omega
    have hfr : esize r ≤ f := by
      simp [esize] at hf
      have := esize_pos l
      omega
    have el : eraseGrad (snapF g f (b + esize l - 1)) = skel powf l := ihl g b f hl hfl
    have er : eraseGrad (snapF g f (b + esize l + esize r - 1)) = skel powf r :=
      ihr g (b + esize l) f hr hfr
    simp [eraseGrad, skel, h1, h2, h3, el, er]
  | un e ih =>
    intro g b fuel hb hf
    obtain ⟨he, h1, h2, h3, h4⟩ := hb
    rcases fuel with _ | f
    · simp [esize] at hf
    have hroot : b + esize (Expr.un e) - 1 = b + esize e := by
      simp only [esize]; omega
    rw [hroot]
    simp only [snapF, h4]
    have hfe : esize e ≤ f := by simp [esize] at hf; omega
    have ee : eraseGrad (snapF g f (b + esize e - 1)) = skel powf e := ih g b f he hfe
    simp [eraseGrad, skel, h1, h2, h3, ee]

/-- If every stored snapshot's skeleton differs from every subtree
skeleton of E, the block root of E is not in the visited set. -/
theorem not_seen_fresh (powf : ℚ → ℚ → ℚ) (E : Expr) (g : Graph) (b : Nat)
    (vis : Visited) (hb : blockAt powf g E b)
    (hfresh : ∀ e ∈ vis, ∀ Ep ∈ subtreesList E, eraseGrad e.2 ≠ skel powf Ep) :
    ¬ seen g vis (b + esize E - 1) := by
  rintro ⟨e, he, h1, -⟩
  have hsnap : eraseGrad (snapNow g (b + esize E - 1)) = skel powf E := by
    unfold snapNow
    apply snap_block powf E g b _ hb
    have := esize_pos E
    omega
  exact hfresh e he E (self_mem_subtreesList E) (by rw [h1, hsnap])

/-- In a compiled binary block whose subtrees are pairwise distinct, the
two operand roots have different deep snapshots (so the propagate
functions take the distinct-parents branch). -/
theorem children_snap_ne (powf : ℚ → ℚ → ℚ) (op : BOp) (l r : Expr) (g : Graph)
    (b : Nat) (hb : blockAt powf g (.bin op l r) b)
    (hnd : (subtreesList (Expr.bin op l r)).Nodup) :
    snapNow g (b + esize l + esize r - 1) ≠ snapNow g (b + esize l - 1) := by
  obtain ⟨hl, hr, -, -, -, -⟩ := hb
  intro heq
  have h1 : eraseGrad (snapNow g (b + esize l - 1)) = skel powf l := by
    unfold snapNow
    apply snap_block powf l g b _ hl
    have := esize_pos l
    omega
  have h2 : eraseGrad (snapNow g (b + esize l + esize r - 1)) = skel powf r := by
    unfold snapNow
    exact snap_block powf r g (b + esize l) (b + esize l + esize r - 1 + 1) hr
      (by have := esize_pos r; omega)
  have hsk : skel powf r = skel powf l := by rw [← h1, ← h2, heq]
  have hrl : r = l := skel_inj powf r l hsk
  have hnd2 : (subtreesList l ++ subtreesList r).Nodup := by
    simpa [subtreesList] using hnd.of_cons
  have hdisj := (List.nodup_append.mp hnd2).2.2
  exact hdisj (self_mem_subtreesList l) (hrl ▸ self_mem_subtreesList r)

theorem set_nd_self (g : Graph) (i : Nat) : g.set i (nd g i) = g := by
  apply List.ext_getElem?
  intro j
  rw [List.getElem?_set]
  by_cases hij : i = j
  · subst hij
    by_cases h : i < g.length
    · simp [h, nd, List.getElem?_eq_getElem h]
    · simp [h, List.getElem?_eq_none (Nat.le_of_not_lt h)]
  · simp [hij]

theorem addGrad_zero (g : Graph) (i : Nat) : addGrad g i 0 = g := by
  have h0 : { nd g i with gradient := (nd g i).gradient + 0 } = nd g i := by
    rw [add_zero]
  unfold addGrad
  rw [h0, set_nd_self]

theorem lt_length_of_rule (g : Graph) (i : Nat) (h : (nd g i).rule ≠ none) :
    i < g.length := by
  by_contra h'
  rw [nd_oob g i (by omega)] at h
  exact h rfl

/-- The data of a compiled subtree's root is the expression's value. -/
theorem blockAt_root_data (powf : ℚ → ℚ → ℚ) :
    ∀ (E : Expr) (g : Graph) (b : Nat), blockAt powf g E b →
      (nd g (b + esize E - 1)).data = evalE powf E := by
  intro E g b h
  cases E with
  | leaf d lab =>
    have hroot : b + esize (Expr.leaf d lab) - 1 = b := by simp only [esize]; omega
    rw [hroot]
    exact h.1.trans (by simp [evalE])
  | bin op l r =>
    have hroot : b + esize (Expr.bin op l r) - 1 = b + esize l + esize r := by
      simp only [esize]; omega
    rw [hroot]
    exact h.2.2.1
  | un e =>
    have hroot : b + esize (Expr.un e) - 1 = b + esize e := by
      simp only [esize]; omega
    rw [hroot]
    exact h.2.1

/-- The root of a compiled subtree has path product 1. -/
theorem dp_root (powf : ℚ → ℚ → ℚ) (E : Expr) (b : Nat) :
    dp powf E b (b + esize E - 1) = 1 := by
  cases E with
  | leaf d lab =>
    have hroot : b + esize (Expr.leaf d lab) - 1 = b := by simp only [esize]; omega
    rw [hroot]
    simp [dp]
  | bin op l r =>
    have hroot : b + esize (Expr.bin op l r) - 1 = b + esize l + esize r := by
      simp only [esize]; omega
    rw [hroot]
    simp [dp]
  | un e =>
    have hroot : b + esize (Expr.un e) - 1 = b + esize e := by
      simp only [esize]; omega
    rw [hroot]
    simp [dp]

theorem aL_eq (powf : ℚ → ℚ → ℚ) (op : BOp) (l r : Expr) (γ : ℚ) :
    aL powf op l r γ = γ * dLeft powf op l r := by
  cases op <;> simp [aL, dLeft] <;> ring

theorem aR_eq (powf : ℚ → ℚ → ℚ) (op : BOp) (l r : Expr) (γ : ℚ) :
    aR powf op l r γ = γ * dRight powf op l r := by
  cases op <;> simp [aR, dRight] <;> ring

theorem mem_subtrees_bin_left (op : BOp) (l r : Expr) {Ep : Expr}
    (h : Ep ∈ subtreesList l) : Ep ∈ subtreesList (.bin op l r) := by
  simp [subtreesList]
  tauto

theorem mem_subtrees_bin_right (op : BOp) (l r : Expr) {Ep : Expr}
    (h : Ep ∈ subtreesList r) : Ep ∈ subtreesList (.bin op l r) := by
  simp [subtreesList]
  tauto

theorem mem_subtrees_un (e : Expr) {Ep : Expr}
    (h : Ep ∈ subtreesList e) : Ep ∈ subtreesList (.un e) := by
  simp [subtreesList]
  tauto

/-- Master lemma: running the DFS from the root of a compiled subtree
whose root gradient is γ and whose interior gradients are 0, with a
visited set containing nothing content-equal to any subtree, (a) appends
exactly the block's event trace, (b) sets each block node's gradient to
γ times the product of the local derivatives along its unique path from
the block root while touching nothing outside the block, and (c) appends
to the visited set one entry per block node, each snapshotting a block
subtree. -/
theorem dfs_block (powf : ℚ → ℚ → ℚ) :
    ∀ (E : Expr) (b : Nat) (γ : ℚ) (fuel : Nat) (g : Graph) (vis : Visited)
      (evs : List Ev),
      blockAt powf g E b →
      (nd g (b + esize E - 1)).gradient = γ →
      (∀ k, b ≤ k → k < b + esize E - 1 → (nd g k).gradient = 0) →
      (∀ e ∈ vis, ∀ Ep ∈ subtreesList E, eraseGrad e.2 ≠ skel powf Ep) →
      (subtreesList E).Nodup →
      b + esize E ≤ fuel →
      (backPropAux powf fuel (g, vis, evs) (b + esize E - 1)).2.2
          = evs ++ blockEvs powf E b γ ∧
      (∀ i, nd (backPropAux powf fuel (g, vis, evs) (b + esize E - 1)).1 i =
          if b ≤ i ∧ i < b + esize E then
            { nd g i with gradient := γ * dp powf E b i }
          else nd g i) ∧
      ∃ nv, (backPropAux powf fuel (g, vis, evs) (b + esize E - 1)).2.1 = vis ++ nv ∧
          ∀ e ∈ nv, (b ≤ e.1 ∧ e.1 < b + esize E) ∧
            ∃ Ep ∈ subtreesList E, eraseGrad e.2 = skel powf Ep := by
  intro E
  induction E with
  | leaf d lab =>
    intro b γ fuel g vis evs hb hγ hz hfresh hnd hfuel
    obtain ⟨h1, h2, h3, h4⟩ := hb
    rcases fuel with _ | f
    · exact absurd hfuel (by simp only [esize]; omega)
    have hroot : b + esize (Expr.leaf d lab) - 1 = b := by simp only [esize]; omega
    rw [hroot] at hγ ⊢
    have hns : ¬ seen g vis b := by
      have := not_seen_fresh powf (.leaf d lab) g b vis ⟨h1, h2, h3, h4⟩ hfresh
      rwa [hroot] at this
    have happ : applyRule powf g b = (g, []) := by
      simp [applyRule, h3]
    rw [backPropAux_succ, if_neg hns, happ]
    simp only [h4, List.foldl_nil]
    have hsnap : eraseGrad (snapNow g b) = skel powf (.leaf d lab) := by
      have := snap_block powf (.leaf d lab) g b (b + 1) ⟨h1, h2, h3, h4⟩
        (by simp only [esize]; omega)
      rw [hroot] at this
      exact this
    refine ⟨by simp [blockEvs], ?_, ⟨[(b, snapNow g b)], rfl, ?_⟩⟩
    · intro i
      by_cases hi : b ≤ i ∧ i < b + esize (Expr.leaf d lab)
      · rw [if_pos hi]
        have hib : i = b := by simp only [esize] at hi; omega
        subst hib
        have hval : γ * dp powf (Expr.leaf d lab) i i = (nd g i).gradient := by
          simp [dp, hγ]
        rw [hval]
      · rw [if_neg hi]
    · intro e he
      simp only [List.mem_singleton] at he
      subst he
      exact ⟨⟨le_refl b, by simp only [esize]; omega⟩,
        ⟨.leaf d lab, self_mem_subtreesList _, hsnap⟩⟩
  | bin op l r ihl ihr =>
    intro b γ fuel g vis evs hb hγ hz hfresh hnd hfuel
    obtain ⟨hbl, hbr, h1, h2, h3, h4⟩ := hb
    rcases fuel with _ | f
    · exact absurd hfuel (by simp only [esize]; omega)
    have hsl := esize_pos l
    have hsr := esize_pos r
    have hroot : b + esize (Expr.bin op l r) - 1 = b + esize l + esize r := by
      simp only [esize]; omega
    have hfuel' : b + esize l + esize r ≤ f := by simp only [esize] at hfuel; omega
    rw [hroot] at hγ hz ⊢
    have hrt_len : b + esize l + esize r < g.length :=
      lt_length_of_rule g _ (by rw [h3]; simp)
    have hrl_len : b + esize l - 1 < g.length := by omega
    have hrr_len : b + esize l + esize r - 1 < g.length := by omega
    have hne_rlrr : ¬ b + esize l - 1 = b + esize l + esize r - 1 := by omega
    have hdl : (nd g (b + esize l - 1)).data = evalE powf l :=
      blockAt_root_data powf l g b hbl
    have hdr : (nd g (b + esize l + esize r - 1)).data = evalE powf r :=
      blockAt_root_data powf r g (b + esize l) hbr
    have hsne : snapNow g (b + esize l + esize r - 1) ≠ snapNow g (b + esize l - 1) :=
      children_snap_ne powf op l r g b ⟨hbl, hbr, h1, h2, h3, h4⟩ hnd
    have hsnK : eraseGrad (snapNow g (b + esize l + esize r)) =
        skel powf (.bin op l r) := by
      have := snap_block powf (.bin op l r) g b (b + esize l + esize r + 1)
        ⟨hbl, hbr, h1, h2, h3, h4⟩ (by simp only [esize]; omega)
      rw [hroot] at this
      exact this
    have happ1 : (applyRule powf g (b + esize l + esize r)).1 =
        addGrad (addGrad g (b + esize l - 1) (aL powf op l r γ))
          (b + esize l + esize r - 1) (aR powf op l r γ) := by
      rcases op with _ | _ | _
      · simp only [applyRule, h3, ruleOfB, h4, if_neg hsne, hγ, aL, aR]
      · simp only [applyRule, h3, ruleOfB, h4, if_neg hsne, hγ, hdl, hdr, aL, aR]
      · simp only [aR, addGrad_zero, applyRule, h3, ruleOfB, h4, hγ, hdl, hdr, aL]
    have happ2 : (applyRule powf g (b + esize l + esize r)).2 =
        binRuleEvs powf op l r b γ := by
      rcases op with _ | _ | _ <;>
        simp only [applyRule, h3, ruleOfB, h4, if_neg hsne, hγ, hdl, hdr, binRuleEvs]
    have hpar2 : (nd (applyRule powf g (b + esize l + esize r)).1
        (b + esize l + esize r)).parents =
        [b + esize l - 1, b + esize l + esize r - 1] := by
      rw [happ1, nd_addGrad, if_neg (fun hc => by omega), nd_addGrad,
        if_neg (fun hc => by omega)]
      exact h4
    have hns : ¬ seen g vis (b + esize l + esize r) := by
      have := not_seen_fresh powf (.bin op l r) g b vis ⟨hbl, hbr, h1, h2, h3, h4⟩ hfresh
      rwa [hroot] at this
    rw [backPropAux_succ, if_neg hns, hpar2, happ1, happ2]
    simp only [List.foldl_cons, List.foldl_nil]
    have hnd2 : (subtreesList l ++ subtreesList r).Nodup := by
      simpa [subtreesList] using hnd.of_cons
    have hndl : (subtreesList l).Nodup := (List.nodup_append.mp hnd2).1
    have hndr : (subtreesList r).Nodup := (List.nodup_append.mp hnd2).2.1
    have hdisj := (List.nodup_append.mp hnd2).2.2
    -- the rule-applied graph
    set G₂ := addGrad (addGrad g (b + esize l - 1) (aL powf op l r γ))
      (b + esize l + esize r - 1) (aR powf op l r γ) with hG₂
    have hshape2 : shape G₂ = shape g := by
      rw [hG₂, shape_addGrad, shape_addGrad]
    have hG₂len : (addGrad g (b + esize l - 1) (aL powf op l r γ)).length = g.length :=
      length_addGrad ..
    have hG₂rd : ∀ k, ¬ k = b + esize l - 1 → ¬ k = b + esize l + esize r - 1 →
        nd G₂ k = nd g k := by
      intro k hk1 hk2
      rw [hG₂, nd_addGrad, if_neg (fun hc => hk2 hc.1.symm), nd_addGrad,
        if_neg (fun hc => hk1 hc.1.symm)]
    have hG₂rl : (nd G₂ (b + esize l - 1)).gradient = aL powf op l r γ := by
      rw [hG₂, nd_addGrad, if_neg (fun hc => hne_rlrr hc.1.symm), nd_addGrad,
        if_pos ⟨rfl, hrl_len⟩]
      simp only
      rw [hz (b + esize l - 1) (by omega) (by omega), zero_add]
    have hG₂rr : (nd G₂ (b + esize l + esize r - 1)).gradient = aR powf op l r γ := by
      rw [hG₂, nd_addGrad, if_pos ⟨rfl, by rw [hG₂len]; exact hrr_len⟩]
      simp only
      rw [nd_addGrad, if_neg (fun hc => hne_rlrr hc.1)]
      rw [hz (b + esize l + esize r - 1) (by omega) (by omega), zero_add]
    -- IH on the left subtree
    obtain ⟨E1l, E2l, nvl, E3l, E4l⟩ :=
      ihl b (aL powf op l r γ) f G₂
        (vis ++ [(b + esize l + esize r, snapNow g (b + esize l + esize r))])
        (evs ++ binRuleEvs powf op l r b γ)
        (blockAt_of_shape powf hshape2 l b hbl)
        hG₂rl
        (by
          intro k hk1 hk2
          rw [hG₂rd k (by omega) (by omega)]
          exact hz k (by omega) (by omega))
        (by
          intro e he Ep hEp
          rcases List.mem_append.mp he with he | he
          · exact hfresh e he Ep (mem_subtrees_bin_left op l r hEp)
          · simp only [List.mem_singleton] at he
            subst he
            simp only
            rw [hsnK]
            intro hc
            have heq := skel_inj powf _ _ hc
            have hle := esize_le_of_mem_subtreesList l Ep hEp
            have := congrArg esize heq
            simp only [esize] at this
            omega)
        hndl
        (by omega)
    -- IH on the right subtree
    obtain ⟨E1r, E2r, nvr, E3r, E4r⟩ :=
      ihr (b + esize l) (aR powf op l r γ) f
        (backPropAux powf f
          (G₂, vis ++ [(b + esize l + esize r, snapNow g (b + esize l + esize r))],
            evs ++ binRuleEvs powf op l r b γ) (b + esize l - 1)).1
        (backPropAux powf f
          (G₂, vis ++ [(b + esize l + esize r, snapNow g (b + esize l + esize r))],
            evs ++ binRuleEvs powf op l r b γ) (b + esize l - 1)).2.1
        (backPropAux powf f
          (G₂, vis ++ [(b + esize l + esize r, snapNow g (b + esize l + esize r))],
            evs ++ binRuleEvs powf op l r b γ) (b + esize l - 1)).2.2
        (blockAt_of_shape powf
          (by rw [shape_backPropAux]; exact hshape2) r (b + esize l) hbr)
        (by
          rw [E2l _, if_neg (by omega)]
          exact hG₂rr)
        (by
          intro k hk1 hk2
          rw [E2l k, if_neg (by omega), hG₂rd k (by omega) (by omega)]
          exact hz k (by omega) (by omega))
        (by
          intro e he Ep hEp
          rw [E3l] at he
          rcases List.mem_append.mp he with he | he
          · rcases List.mem_append.mp he with he | he
            · exact hfresh e he Ep (mem_subtrees_bin_right op l r hEp)
            · simp only [List.mem_singleton] at he
              subst he
              simp only
              rw [hsnK]
              intro hc
              have heq := skel_inj powf _ _ hc
              have hle := esize_le_of_mem_subtreesList r Ep hEp
              have := congrArg esize heq
              simp only [esize] at this
              omega
          · obtain ⟨-, Ep', hEp', heq'⟩ := E4l e he
            rw [heq']
            intro hc
            have := skel_inj powf _ _ hc
            exact hdisj hEp' (this ▸ hEp))
        hndr
        (by omega)
    refine ⟨?_, ?_, ?_⟩
    · rw [E1r, E1l]
      simp [blockEvs, List.append_assoc]
    · intro i
      rw [E2r i]
      by_cases hiR : b + esize l ≤ i ∧ i < b + esize l + esize r
      · rw [if_pos ⟨hiR.1, by omega⟩, E2l i, if_neg (by omega)]
        rw [if_pos (by simp only [esize]; omega)]
        by_cases hirr : i = b + esize l + esize r - 1
        · subst hirr
          rw [hG₂, nd_addGrad, if_pos ⟨rfl, by rw [hG₂len]; exact hrr_len⟩]
          simp only
          rw [nd_addGrad, if_neg (fun hc => hne_rlrr hc.1)]
          have hval : aR powf op l r γ *
              dp powf r (b + esize l) (b + esize l + esize r - 1) =
              γ * dp powf (Expr.bin op l r) b (b + esize l + esize r - 1) := by
            have hdpr : dp powf r (b + esize l) (b + esize l + esize r - 1) = 1 :=
              dp_root powf r (b + esize l)
            have hdpl : dp powf l b (b + esize l + esize r - 1) = 0 :=
              dp_out powf l b _ (by omega)
            rw [aR_eq]
            simp only [dp, if_neg (show ¬ b + esize l + esize r - 1 =
              b + esize l + esize r by omega), hdpr, hdpl]
            ring
          rw [← hval]
        · rw [hG₂rd i (by omega) (fun hc => hirr hc)]
          have hval : aR powf op l r γ * dp powf r (b + esize l) i =
              γ * dp powf (Expr.bin op l r) b i := by
            have hdpl : dp powf l b i = 0 := dp_out powf l b i (by omega)
            rw [aR_eq]
            simp only [dp, if_neg (show ¬ i = b + esize l + esize r by omega), hdpl]
            ring
          rw [← hval]
      · rw [if_neg (by omega), E2l i]
        by_cases hiL : b ≤ i ∧ i < b + esize l
        · rw [if_pos hiL]
          rw [if_pos (by simp only [esize]; omega)]
          by_cases hirl : i = b + esize l - 1
          · subst hirl
            rw [hG₂, nd_addGrad, if_neg (fun hc => hne_rlrr hc.1.symm)]
            rw [nd_addGrad, if_pos ⟨rfl, hrl_len⟩]
            have hval : aL powf op l r γ * dp powf l b (b + esize l - 1) =
                γ * dp powf (Expr.bin op l r) b (b + esize l - 1) := by
              have hdpl : dp powf l b (b + esize l - 1) = 1 := dp_root powf l b
              have hdpr : dp powf r (b + esize l) (b + esize l - 1) = 0 :=
                dp_out powf r (b + esize l) _ (by omega)
              rw [aL_eq]
              simp only [dp, if_neg (show ¬ b + esize l - 1 =
                b + esize l + esize r by omega), hdpl, hdpr]
              ring
            rw [← hval]
          · rw [hG₂rd i (fun hc => hirl hc) (by omega)]
            have hval : aL powf op l r γ * dp powf l b i =
                γ * dp powf (Expr.bin op l r) b i := by
              have hdpr : dp powf r (b + esize l) i = 0 :=
                dp_out powf r (b + esize l) i (by omega)
              rw [aL_eq]
              simp only [dp, if_neg (show ¬ i = b + esize l + esize r by omega), hdpr]
              ring
            rw [← hval]
        · rw [if_neg hiL]
          by_cases hirt : i = b + esize l + esize r
          · subst hirt
            rw [hG₂rd _ (by omega) (by omega)]
            rw [if_pos (by simp only [esize]; omega)]
            have hval : γ * dp powf (Expr.bin op l r) b (b + esize l + esize r) =
                (nd g (b + esize l + esize r)).gradient := by
              simp only [dp, eq_self_iff_true, if_true, mul_one]
              exact hγ.symm
            rw [hval]
          · rw [hG₂rd i (by omega) (by omega)]
            rw [if_neg (by simp only [esize]; omega)]
    · refine ⟨[(b + esize l + esize r, snapNow g (b + esize l + esize r))] ++ nvl ++ nvr,
        ?_, ?_⟩
      · rw [E3r, E3l]
        simp [List.append_assoc]
      · intro e he
        simp only [List.append_assoc, List.mem_append, List.mem_singleton] at he
        rcases he with he | he | he
        · subst he
          exact ⟨⟨by omega, by simp only [esize]; omega⟩,
            ⟨.bin op l r, self_mem_subtreesList _, hsnK⟩⟩
        · obtain ⟨⟨hb1, hb2⟩, Ep, hEp, heq⟩ := E4l e he
          exact ⟨⟨hb1, by simp only [esize]; omega⟩,
            ⟨Ep, mem_subtrees_bin_left op l r hEp, heq⟩⟩
        · obtain ⟨⟨hb1, hb2⟩, Ep, hEp, heq⟩ := E4r e he
          exact ⟨⟨by omega, by simp only [esize]; omega⟩,
            ⟨Ep, mem_subtrees_bin_right op l r hEp, heq⟩⟩
  | un e ih =>
    intro b γ fuel g vis evs hb hγ hz hfresh hnd hfuel
    obtain ⟨hbe, h1, h2, h3, h4⟩ := hb
    rcases fuel with _ | f
    · exact absurd hfuel (by simp only [esize]; omega)
    have hse := esize_pos e
    have hroot : b + esize (Expr.un e) - 1 = b + esize e := by
      simp only [esize]; omega
    have hfuel' : b + esize e ≤ f := by simp only [esize] at hfuel; omega
    rw [hroot] at hγ hz ⊢
    have hrt_len : b + esize e < g.length :=
      lt_length_of_rule g _ (by rw [h3]; simp)
    have hrc_len : b + esize e - 1 < g.length := by omega
    have hdl : (nd g (b + esize e - 1)).data = evalE powf e :=
      blockAt_root_data powf e g b hbe
    have hsnK : eraseGrad (snapNow g (b + esize e)) = skel powf (.un e) := by
      have := snap_block powf (.un e) g b (b + esize e + 1)
        ⟨hbe, h1, h2, h3, h4⟩ (by simp only [esize]; omega)
      rw [hroot] at this
      exact this
    have happ1 : (applyRule powf g (b + esize e)).1 =
        addGrad g (b + esize e - 1) (if evalE powf e > 0 then γ else 0) := by
      simp only [applyRule, h3, h4, hγ, hdl]
    have happ2 : (applyRule powf g (b + esize e)).2 =
        [.fire (b + esize e), .add (b + esize e - 1)
          (if evalE powf e > 0 then γ else 0)] := by
      simp only [applyRule, h3, h4, hγ, hdl]
    have hpar2 : (nd (applyRule powf g (b + esize e)).1 (b + esize e)).parents =
        [b + esize e - 1] := by
      rw [happ1, nd_addGrad, if_neg (fun hc => by omega)]
      exact h4
    have hns : ¬ seen g vis (b + esize e) := by
      have := not_seen_fresh powf (.un e) g b vis ⟨hbe, h1, h2, h3, h4⟩ hfresh
      rwa [hroot] at this
    rw [backPropAux_succ, if_neg hns, hpar2, happ1, happ2]
    simp only [List.foldl_cons, List.foldl_nil]
    have hnde : (subtreesList e).Nodup := by
      simpa [subtreesList] using hnd.of_cons
    set C := if evalE powf e > 0 then γ else (0 : ℚ) with hC
    have hCdR : C = γ * dRelu powf e := by
      rw [hC, dRelu]
      by_cases hpos : evalE powf e > 0 <;> simp [hpos]
    set G₂ := addGrad g (b + esize e - 1) C with hG₂
    have hshape2 : shape G₂ = shape g := by rw [hG₂, shape_addGrad]
    have hG₂rd : ∀ k, ¬ k = b + esize e - 1 → nd G₂ k = nd g k := by
      intro k hk1
      rw [hG₂, nd_addGrad, if_neg (fun hc => hk1 hc.1.symm)]
    have hG₂rc : (nd G₂ (b + esize e - 1)).gradient = C := by
      rw [hG₂, nd_addGrad, if_pos ⟨rfl, hrc_len⟩]
      simp only
      rw [hz (b + esize e - 1) (by omega) (by omega), zero_add]
    obtain ⟨E1e, E2e, nve, E3e, E4e⟩ :=
      ih b C f G₂
        (vis ++ [(b + esize e, snapNow g (b + esize e))])
        (evs ++ [.fire (b + esize e), .add (b + esize e - 1) C])
        (blockAt_of_shape powf hshape2 e b hbe)
        hG₂rc
        (by
          intro k hk1 hk2
          rw [hG₂rd k (by omega)]
          exact hz k (by omega) (by omega))
        (by
          intro e' he' Ep hEp
          rcases List.mem_append.mp he' with he' | he'
          · exact hfresh e' he' Ep (mem_subtrees_un e hEp)
          · simp only [List.mem_singleton] at he'
            subst he'
            simp only
            rw [hsnK]
            intro hc
            have heq := skel_inj powf _ _ hc
            have hle := esize_le_of_mem_subtreesList e Ep hEp
            have := congrArg esize heq
            simp only [esize] at this
            omega)
        hnde
        (by omega)
    refine ⟨?_, ?_, ?_⟩
    · rw [E1e]
      simp [blockEvs, List.append_assoc, hC]
    · intro i
      rw [E2e i]
      by_cases hiE : b ≤ i ∧ i < b + esize e
      · rw [if_pos hiE, if_pos (by simp only [esize]; omega)]
        by_cases hirc : i = b + esize e - 1
        · subst hirc
          rw [hG₂, nd_addGrad, if_pos ⟨rfl, hrc_len⟩]
          have hval : C * dp powf e b (b + esize e - 1) =
              γ * dp powf (Expr.un e) b (b + esize e - 1) := by
            rw [hCdR, dp_root powf e b]
            simp only [dp, if_neg (show ¬ b + esize e - 1 = b + esize e by omega),
              dp_root powf e b]
            ring
          rw [← hval]
        · rw [hG₂rd i (fun hc => hirc hc)]
          have hval : C * dp powf e b i = γ * dp powf (Expr.un e) b i := by
            rw [hCdR]
            simp only [dp, if_neg (show ¬ i = b + esize e by omega)]
            ring
          rw [← hval]
      · rw [if_neg hiE]
        by_cases hirt : i = b + esize e
        · subst hirt
          rw [hG₂rd _ (by omega), if_pos (by simp only [esize]; omega)]
          have hval : γ * dp powf (Expr.un e) b (b + esize e) =
              (nd g (b + esize e)).gradient := by
            simp only [dp, eq_self_iff_true, if_true, mul_one]
            exact hγ.symm
          rw [hval]
        · rw [hG₂rd i (by omega), if_neg (by simp only [esize]; omega)]
    · refine ⟨[(b + esize e, snapNow g (b + esize e))] ++ nve, ?_, ?_⟩
      · rw [E3e]
        simp [List.append_assoc]
      · intro e' he'
        simp only [List.append_assoc, List.mem_append, List.mem_singleton] at he'
        rcases he' with he' | he'
        · subst he'
          exact ⟨⟨by omega, by simp only [esize]; omega⟩,
            ⟨.un e, self_mem_subtreesList _, hsnK⟩⟩
        · obtain ⟨⟨hb1, hb2⟩, Ep, hEp, heq⟩ := E4e e' he'
          exact ⟨⟨hb1, by simp only [esize]; omega⟩,
            ⟨Ep, mem_subtrees_un e hEp, heq⟩⟩

/-- On a compiled subtree the chain-rule path sum from the subtree root
collapses to the product of the local derivatives along the unique path:
the spec-side sum over paths equals dp. -/
theorem sumPaths_eq_dp (powf : ℚ → ℚ → ℚ) :
    ∀ (E : Expr) (g : Graph) (b : Nat) (i fuel : Nat), blockAt powf g E b →
      esize E ≤ fuel →
      sumPathsF powf g fuel (b + esize E - 1) i = dp powf E b i := by
  intro E
  induction E with
  | leaf d lab =>
    intro g b i fuel hb hf
    obtain ⟨h1, h2, h3, h4⟩ := hb
    rcases fuel with _ | f
    · exact absurd hf (by simp only [esize]; omega)
    have hroot : b + esize (Expr.leaf d lab) - 1 = b := by simp only [esize]; omega
    rw [hroot]
    simp [sumPathsF, h4, dp]
  | bin op l r ihl ihr =>
    intro g b i fuel hb hf
    obtain ⟨hbl, hbr, h1, h2, h3, h4⟩ := hb
    rcases fuel with _ | f
    · exact absurd hf (by simp only [esize]; omega)
    have hsl := esize_pos l
    have hsr := esize_pos r
    have hroot : b + esize (Expr.bin op l r) - 1 = b + esize l + esize r := by
      simp only [esize]; omega
    rw [hroot]
    have hdl : (nd g (b + esize l - 1)).data = evalE powf l :=
      blockAt_root_data powf l g b hbl
    have hdr : (nd g (b + esize l + esize r - 1)).data = evalE powf r :=
      blockAt_root_data powf r g (b + esize l) hbr
    have hd0 : specLocalDeriv powf g (b + esize l + esize r) 0 =
        dLeft powf op l r := by
      rcases op with _ | _ | _ <;>
        simp [specLocalDeriv, h3, ruleOfB, h4, dLeft, hdl, hdr]
    have hd1 : specLocalDeriv powf g (b + esize l + esize r) 1 =
        dRight powf op l r := by
      rcases op with _ | _ | _ <;>
        simp [specLocalDeriv, h3, ruleOfB, h4, dRight, hdl, hdr]
    have hSl : sumPathsF powf g f (b + esize l - 1) i = dp powf l b i :=
      ihl g b i f hbl (by simp only [esize] at hf; omega)
    have hSr : sumPathsF powf g f (b + esize l + esize r - 1) i =
        dp powf r (b + esize l) i :=
      ihr g (b + esize l) i f hbr (by simp only [esize] at hf; omega)
    rw [show sumPathsF powf g (f + 1) (b + esize l + esize r) i =
        (if i = b + esize l + esize r then 1 else 0) +
          ((List.range (nd g (b + esize l + esize r)).parents.length).map
            (fun k => specLocalDeriv powf g (b + esize l + esize r) k *
              sumPathsF powf g f
                ((nd g (b + esize l + esize r)).parents.getD k 0) i)).sum from rfl]
    rw [h4]
    simp only [List.length_cons, List.length_nil, List.range_succ, List.range_zero,
      List.map_append, List.map_cons, List.map_nil, List.sum_append, List.sum_cons,
      List.sum_nil, List.nil_append, List.getD_cons_zero, List.getD_cons_succ]
    rw [hd0, hd1, hSl, hSr]
    by_cases hirt : i = b + esize l + esize r
    · subst hirt
      have hl0 : dp powf l b (b + esize l + esize r) = 0 :=
        dp_out powf l b _ (by omega)
      have hr0 : dp powf r (b + esize l) (b + esize l + esize r) = 0 :=
        dp_out powf r (b + esize l) _ (by omega)
      simp [dp, hl0, hr0]
    · simp only [if_neg hirt, dp, zero_add, add_zero]
  | un e ih =>
    intro g b i fuel hb hf
    obtain ⟨hbe, h1, h2, h3, h4⟩ := hb
    rcases fuel with _ | f
    · exact absurd hf (by simp only [esize]; omega)
    have hse := esize_pos e
    have hroot : b + esize (Expr.un e) - 1 = b + esize e := by simp only [esize]; omega
    rw [hroot]
    have hdl : (nd g (b + esize e - 1)).data = evalE powf e :=
      blockAt_root_data powf e g b hbe
    have hd0 : specLocalDeriv powf g (b + esize e) 0 = dRelu powf e := by
      simp [specLocalDeriv, h3, h4, dRelu, hdl]
    have hSe : sumPathsF powf g f (b + esize e - 1) i = dp powf e b i :=
      ih g b i f hbe (by simp only [esize] at hf; omega)
    rw [show sumPathsF powf g (f + 1) (b + esize e) i =
        (if i = b + esize e then 1 else 0) +
          ((List.range (nd g (b + esize e)).parents.length).map
            (fun k => specLocalDeriv powf g (b + esize e) k *
              sumPathsF powf g f
                ((nd g (b + esize e)).parents.getD k 0) i)).sum from rfl]
    rw [h4]
    simp only [List.length_cons, List.length_nil, List.range_succ, List.range_zero,
      List.map_append, List.map_cons, List.map_nil, List.sum_append, List.sum_cons,
      List.sum_nil, List.nil_append, List.getD_cons_zero]
    rw [hd0, hSe]
    by_cases hirt : i = b + esize e
    · subst hirt
      have he0 : dp powf e b (b + esize e) = 0 := dp_out powf e b _ (by omega)
      simp [dp, he0]
    · simp only [if_neg hirt, dp, zero_add, add_zero]

/-- Indices of the rule-bearing (operation) nodes of a compiled subtree. -/
def opNodesList : Expr → Nat → List Nat
  | .leaf _ _, _ => []
  | .bin _ l r, b =>
    (b + esize l + esize r) :: (opNodesList l b ++ opNodesList r (b + esize l))
  | .un e, b => (b + esize e) :: opNodesList e b

theorem opNodesList_range :
    ∀ (E : Expr) (b : Nat), ∀ j ∈ opNodesList E b, b ≤ j ∧ j < b + esize E := by
  intro E
  induction E with
  | leaf d lab => intro b j hj; simp [opNodesList] at hj
  | bin op l r ihl ihr =>
    intro b j hj
    have hsl := esize_pos l
    have hsr := esize_pos r
    simp only [opNodesList, List.mem_cons, List.mem_append] at hj
    rcases hj with rfl | hj | hj
    · exact ⟨by omega, by simp only [esize]; omega⟩
    · have := ihl b j hj
      exact ⟨by omega, by simp only [esize]; omega⟩
    · have := ihr (b + esize l) j hj
      exact ⟨by omega, by simp only [esize]; omega⟩
  | un e ih =>
    intro b j hj
    have hse := esize_pos e
    simp only [opNodesList, List.mem_cons] at hj
    rcases hj with rfl | hj
    · exact ⟨by omega, by simp only [esize]; omega⟩
    · have := ih b j hj
      exact ⟨by omega, by simp only [esize]; omega⟩

/-- One fire event per operation node in a block's trace. -/
theorem count_fire_blockEvs (powf : ℚ → ℚ → ℚ) :
    ∀ (E : Expr) (b : Nat) (γ : ℚ) (j : Nat),
      (blockEvs powf E b γ).count (Ev.fire j) =
        if j ∈ opNodesList E b then 1 else 0 := by
  intro E
  induction E with
  | leaf d lab => intro b γ j; simp [blockEvs, opNodesList]
  | bin op l r ihl ihr =>
    intro b γ j
    have hsl := esize_pos l
    have hsr := esize_pos r
    have hcrule : (binRuleEvs powf op l r b γ).count (Ev.fire j) =
        if j = b + esize l + esize r then 1 else 0 := by
      rcases op with _ | _ | _ <;>
        · simp only [binRuleEvs, List.count_cons, List.count_nil, beq_iff_eq]
          by_cases hj : j = b + esize l + esize r
          · subst hj
            simp
          · have hj' : ¬ (b + esize l + esize r = j) := fun h => hj h.symm
            simp [hj, hj']
    rw [blockEvs, List.count_append, List.count_append, hcrule, ihl, ihr]
    have hl := opNodesList_range l b
    have hr := opNodesList_range r (b + esize l)
    simp only [opNodesList, List.mem_cons, List.mem_append]
    by_cases h1 : j = b + esize l + esize r
    · have h2 : j ∉ opNodesList l b := fun hm => by have := hl j hm; omega
      have h3 : j ∉ opNodesList r (b + esize l) := fun hm => by have := hr j hm; omega
      subst h1
      simp [h2, h3]
    · by_cases h2 : j ∈ opNodesList l b
      · have h3 : j ∉ opNodesList r (b + esize l) := fun hm => by
          have := hr j hm
          have := hl j h2
          omega
        simp [h1, h2, h3]
      · by_cases h3 : j ∈ opNodesList r (b + esize l)
        · simp [h1, h2, h3]
        · simp [h1, h2, h3]
  | un e ih =>
    intro b γ j
    have hse := esize_pos e
    have he := opNodesList_range e b
    rw [blockEvs, List.count_append, ih]
    simp only [opNodesList, List.mem_cons]
    by_cases h1 : j = b + esize e
    · have h2 : j ∉ opNodesList e b := fun hm => by have := he j hm; omega
      subst h1
      simp [h2, List.count_cons, beq_iff_eq]
    · have h1' : ¬ (b + esize e = j) := fun h => h1 h.symm
      by_cases h2 : j ∈ opNodesList e b
      · simp [h1, h1', h2, List.count_cons, beq_iff_eq]
      · simp [h1, h1', h2, List.count_cons, beq_iff_eq]

/-- A compiled block node carries a rule exactly when it is an
operation node. -/
theorem rule_isSome_iff_opNode (powf : ℚ → ℚ → ℚ) :
    ∀ (E : Expr) (g : Graph) (b : Nat), blockAt powf g E b →
      ∀ i, b ≤ i → i < b + esize E →
        ((nd g i).rule.isSome ↔ i ∈ opNodesList E b) := by
  intro E
  induction E with
  | leaf d lab =>
    intro g b hb i h1 h2
    have hib : i = b := by simp only [esize] at h2; omega
    subst hib
    simp [hb.2.2.1, opNodesList]
  | bin op l r ihl ihr =>
    intro g b hb i h1 h2
    obtain ⟨hbl, hbr, f1, f2, f3, f4⟩ := hb
    have hsl := esize_pos l
    have hsr := esize_pos r
    simp only [esize] at h2
    simp only [opNodesList, List.mem_cons, List.mem_append]
    by_cases hrt : i = b + esize l + esize r
    · subst hrt
      simp [f3]
    · by_cases hiL : i < b + esize l
      · rw [ihl g b hbl i h1 hiL]
        have := opNodesList_range r (b + esize l)
        constructor
        · intro h; tauto
        · rintro (h | h | h)
          · omega
          · exact h
          · have := this i h; omega
      · have hiR : b + esize l ≤ i ∧ i < b + esize l + esize r := by omega
        rw [ihr g (b + esize l) hbr i hiR.1 hiR.2]
        have := opNodesList_range l b
        constructor
        · intro h; tauto
        · rintro (h | h | h)
          · omega
          · have := this i h; omega
          · exact h
  | un e ih =>
    intro g b hb i h1 h2
    obtain ⟨hbe, f1, f2, f3, f4⟩ := hb
    have hse := esize_pos e
    simp only [esize] at h2
    simp only [opNodesList, List.mem_cons]
    by_cases hrt : i = b + esize e
    · subst hrt
      simp [f3]
    · have hiE : i < b + esize e := by omega
      rw [ih g b hbe i h1 hiE]
      constructor
      · intro h; tauto
      · rintro (h | h)
        · omega
        · exact h

/-! ## Claim C1: the multi-path chain rule -/

/-- Claim C1, counterexample.  In the diamond graph (node w = a + b is
reachable from the terminal t along two paths), the chain rule demands
gradient 2 for the leaf a (two paths, each with derivative product 1),
but the pass computes 3: w's gradient changes between its first visit
and the second path's arrival, the stale-snapshot visited set fails to
recognise it, and w's rule fires a second time. -/
theorem c1_counterexample :
    (nd (backProp qzero diamondGraph 7).1 0).gradient = 3 ∧
    specSumPaths qzero diamondGraph 7 0 = 2 ∧
    ¬ (nd (backProp qzero diamondGraph 7).1 0).gradient =
        specSumPaths qzero diamondGraph 7 0 := by
  with_unfolding_all exact of_decide_eq_true rfl

/-- Claim C1, amended.  For every computation graph built from the
operators in which no node is consumed by more than one operation and no
two nodes have equal contents (a compiled expression tree with pairwise
distinct subtrees), the gradient of every node after the backward pass
seeded with 1 at the terminal equals the sum, over every path from that
node to the terminal, of the product of the local derivatives along the
path. -/
theorem c1_chain_rule_tree (powf : ℚ → ℚ → ℚ) (E : Expr)
    (hnd : (subtreesList E).Nodup) :
    ∀ i, i < esize E →
      (nd (backProp powf (compileG powf E) (esize E - 1)).1 i).gradient =
        specSumPaths powf (compileG powf E) (esize E - 1) i := by
  intro i hi
  have hse := esize_pos E
  have hlen : (compileG powf E).length = esize E := length_compileAux powf E 0
  have hb0 : blockAt powf (compileG powf E) E 0 := blockAt_compileG powf E
  have h00 : 0 + esize E - 1 = esize E - 1 := by omega
  have hbs : blockAt powf (setGrad (compileG powf E) (esize E - 1) 1) E 0 :=
    blockAt_of_shape powf (shape_setGrad _ _ _) E 0 hb0
  obtain ⟨-, E2, -⟩ := dfs_block powf E 0 1 (esize E - 1 + 1)
      (setGrad (compileG powf E) (esize E - 1) 1) [] [.assign (esize E - 1) 1]
      hbs
      (by rw [h00, nd_setGrad, if_pos ⟨rfl, by omega⟩])
      (by
        intro k hk1 hk2
        rw [h00] at hk2
        rw [nd_setGrad, if_neg (fun hc => by omega)]
        exact compileAux_grad_zero powf E 0 k)
      (by intro e he; exact absurd he (List.not_mem_nil e))
      hnd
      (by omega)
  have hout := E2 i
  rw [h00] at hout
  rw [show (backProp powf (compileG powf E) (esize E - 1)).1 =
      (backPropAux powf (esize E - 1 + 1)
        (setGrad (compileG powf E) (esize E - 1) 1, [],
          [.assign (esize E - 1) 1]) (esize E - 1)).1 from rfl]
  rw [hout, if_pos ⟨by omega, by omega⟩]
  have hbr := sumPaths_eq_dp powf E (compileG powf E) 0 i (esize E - 1 + 1) hb0
    (by omega)
  rw [h00] at hbr
  rw [show specSumPaths powf (compileG powf E) (esize E - 1) i =
      sumPathsF powf (compileG powf E) (esize E - 1 + 1) (esize E - 1) i from rfl,
    hbr]
  show 1 * dp powf E 0 i = dp powf E 0 i
  exact one_mul _

/-- The worked example as an expression tree: l = ((a*b) + c) * f with
a=2, b=-3, c=10, f=-2.  Indices after compilation: a=0, b=1, e=a*b=2,
c=3, d=e+c=4, f=5, l=6. -/
def exampleTree : Expr :=
  .bin .bmul
    (.bin .badd
      (.bin .bmul (.leaf 2 (some "a")) (.leaf (-3) (some "b")))
      (.leaf 10 (some "c")))
    (.leaf (-2) (some "f"))

/-- Claim C1, amended, witness: the worked-example tree at the leaf
a (index 0). -/
theorem c1_witness :
    (nd (backProp qzero (compileG qzero exampleTree) (esize exampleTree - 1)).1
      0).gradient =
      specSumPaths qzero (compileG qzero exampleTree) (esize exampleTree - 1) 0 :=
  c1_chain_rule_tree qzero exampleTree
    (by with_unfolding_all exact of_decide_eq_true rfl) 0
    (by with_unfolding_all exact of_decide_eq_true rfl)

/-! ## Claim C9: each rule invoked exactly once -/

/-- Claim C9, counterexample.  In the diamond graph the rule of node
w = a + b (index 2) is invoked twice during a single backward pass: when
the second path reaches w its deep contents have changed since its first
visit, so the stored snapshot (the stored hash) no longer matches and
the visited-set lookup fails. -/
theorem c9_counterexample :
    List.count (Ev.fire 2) (backProp qzero diamondGraph 7).2.2 = 2 ∧
    ¬ List.count (Ev.fire 2) (backProp qzero diamondGraph 7).2.2 = 1 := by
  with_unfolding_all exact of_decide_eq_true rfl

/-- Claim C9, amended.  On a computation graph in which no node is
consumed by more than one operation and no two nodes have equal contents
(a compiled expression tree with pairwise distinct subtrees), a single
backward pass invokes the local-gradient rule of every rule-bearing node
exactly once and fires nothing on the leaves. -/
theorem c9_each_rule_once_tree (powf : ℚ → ℚ → ℚ) (E : Expr)
    (hnd : (subtreesList E).Nodup) :
    ∀ i, i < esize E →
      List.count (Ev.fire i) (backProp powf (compileG powf E) (esize E - 1)).2.2 =
        if (nd (compileG powf E) i).rule.isSome then 1 else 0 := by
  intro i hi
  have hse := esize_pos E
  have hlen : (compileG powf E).length = esize E := length_compileAux powf E 0
  have hb0 : blockAt powf (compileG powf E) E 0 := blockAt_compileG powf E
  have h00 : 0 + esize E - 1 = esize E - 1 := by omega
  have hbs : blockAt powf (setGrad (compileG powf E) (esize E - 1) 1) E 0 :=
    blockAt_of_shape powf (shape_setGrad _ _ _) E 0 hb0
  obtain ⟨E1, -, -⟩ := dfs_block powf E 0 1 (esize E - 1 + 1)
      (setGrad (compileG powf E) (esize E - 1) 1) [] [.assign (esize E - 1) 1]
      hbs
      (by rw [h00, nd_setGrad, if_pos ⟨rfl, by omega⟩])
      (by
        intro k hk1 hk2
        rw [h00] at hk2
        rw [nd_setGrad, if_neg (fun hc => by omega)]
        exact compileAux_grad_zero powf E 0 k)
      (by intro e he; exact absurd he (List.not_mem_nil e))
      hnd
      (by omega)
  rw [h00] at E1
  rw [show (backProp powf (compileG powf E) (esize E - 1)).2.2 =
      (backPropAux powf (esize E - 1 + 1)
        (setGrad (compileG powf E) (esize E - 1) 1, [],
          [.assign (esize E - 1) 1]) (esize E - 1)).2.2 from rfl]
  rw [E1, List.count_append, count_fire_blockEvs powf E 0 1 i]
  rw [show List.count (Ev.fire i) [Ev.assign (esize E - 1) 1] = 0 from by
    simp [List.count_cons]]
  have hiff := rule_isSome_iff_opNode powf E (compileG powf E) 0 hb0 i (by omega)
    (by omega)
  by_cases hmem : i ∈ opNodesList E 0
  · rw [if_pos hmem, if_pos (hiff.mpr hmem)]
  · rw [if_neg hmem, if_neg (fun hc => hmem (hiff.mp hc))]

/-- Claim C9, amended, witness: the worked-example tree at the interior
multiplication node e = a*b (index 2) -- its rule fires exactly once. -/
theorem c9_witness :
    List.count (Ev.fire 2)
      (backProp qzero (compileG qzero exampleTree) (esize exampleTree - 1)).2.2 =
      if (nd (compileG qzero exampleTree) 2).rule.isSome then 1 else 0 :=
  c9_each_rule_once_tree qzero exampleTree
    (by with_unfolding_all exact of_decide_eq_true rfl) 2
    (by with_unfolding_all exact of_decide_eq_true rfl)

end Neuron
